import Mathlib

/-!
Formal model of the Memory Store engine of memory-mcp (src/store.ts).

Modelling conventions, applied uniformly:
- JS strings are Lean strings, handled through their character lists; the
  tokenizer works over explicit character lists so that every definition
  evaluates by kernel reduction.
- JS `Set<string>` values are duplicate-free lists (`List.dedup`); only their
  membership and size are ever consumed by the source, which the list model
  preserves.
- Timestamps (ISO strings in the store, `Date.now()` / `Date.getTime()` values
  in arithmetic) are integer milliseconds.  All timestamps taken during a
  single store operation are modelled as the one `now` argument of that
  operation, and `save()` stamping `lastUpdated` is the `save` function below.
- Floating-point similarity/confidence arithmetic is modelled as exact
  rational arithmetic (`ℚ`); the literals 0.6 and 0.3 are the exact rationals
  6/10 and 3/10.
- Fresh record ids (`mem_${Date.now()}_${random}`) are passed in as explicit
  arguments (`newId`, or an `mkId : Nat → String` indexed by loop iteration);
  the store's behaviour is otherwise deterministic in them.
-/

namespace MemoryMcp

/-- Milliseconds since the epoch, the numeric form of every timestamp. -/
abbrev Time := Int

/-- STOP_WORDS from store.ts lines 5-11. -/
def STOP_WORDS : List String := [
  "the", "a", "an", "is", "are", "was", "were", "using", "with", "for",
  "to", "in", "on", "of", "and", "that", "this", "it", "be", "as", "at",
  "by", "from", "or", "not", "but", "have", "has", "had", "do", "does",
  "did", "will", "would", "could", "should", "may", "might", "can",
  "we", "our", "they", "them", "its", "use", "used", "all", "each"]

/-- Characters surviving the replace(/[^a-z0-9\s]/g, "") step of tokenize. -/
def keepChar (c : Char) : Bool :=
  (decide ('a' ≤ c) && decide (c ≤ 'z')) || (decide ('0' ≤ c) && decide (c ≤ '9')) || c.isWhitespace

/-- Split a character list at whitespace runs, as split(/\s+/) does up to empty
    pieces (which the length filter of tokenize discards either way). -/
def splitWsAux : List Char → List Char → List String
  | [], acc => [String.mk acc.reverse]
  | c :: cs, acc =>
    if c.isWhitespace then String.mk acc.reverse :: splitWsAux cs []
    else splitWsAux cs (c :: acc)

/-- tokenize (store.ts 37-44): lowercase, strip characters outside [a-z0-9\s],
    split on whitespace, keep words longer than 2 letters that are not stop
    words, and collect them as a set (here: a deduplicated list). -/
def tokenize (s : String) : List String :=
  let cleaned := (s.data.map Char.toLower).filter keepChar
  let words := splitWsAux cleaned []
  (words.filter (fun w => decide (2 < w.length) && !(STOP_WORDS.contains w))).dedup

/-- jaccard (store.ts 46-54) over the list model of token sets.  The division
    intersection/union is the exact rational mkRat; both arguments come from
    tokenize and are duplicate-free, so lengths are set sizes. -/
def jaccard (a b : List String) : ℚ :=
  if a.length = 0 && b.length = 0 then 1
  else
    let inter := (a.filter (fun x => b.contains x)).length
    let union := a.length + b.length - inter
    if union = 0 then 0 else mkRat (Int.ofNat inter) union

/-- The similarity threshold 0.6 of the dedup check (store.ts 180). -/
def simThreshold : ℚ := mkRat 6 10

/-- The confidence floor 0.3 of the digest filter (store.ts 390). -/
def confFloor : ℚ := mkRat 3 10

/-- The six memory types (types.ts). -/
inductive MemoryType
  | architecture
  | decision
  | pattern
  | gotcha
  | progress
  | context
  deriving DecidableEq, Repr, Inhabited

/-- A memory record (types.ts / §3 of the spec). -/
structure Memory where
  id : String
  type : MemoryType
  content : String
  tags : List String
  created : Time
  updated : Time
  confidence : ℚ
  accessCount : Nat
  supersedes : Option String := none
  mergedFrom : Option (List String) := none
  deriving DecidableEq, Repr, Inhabited

/-- Default record used with List.getD in index-based statements. -/
def dummyMemory : Memory :=
  { id := "", type := MemoryType.context, content := "", tags := [],
    created := 0, updated := 0, confidence := 0, accessCount := 0 }

/-- The persisted project state (types.ts / §3 of the spec). -/
structure ProjectState where
  version : Nat
  project : String
  description : String
  memories : List Memory
  lastUpdated : Time
  extractionCount : Nat
  lastConsolidation : Option Time := none
  deriving DecidableEq, Repr, Inhabited

/-- save() (store.ts 139-142): stamp lastUpdated and write the document. -/
def save (now : Time) (st : ProjectState) : ProjectState :=
  { st with lastUpdated := now }

/-- The active-record predicate of getActiveMemories (store.ts 221-225). -/
def isActiveMem (m : Memory) : Bool :=
  !(m.tags.contains "superseded") && !(m.tags.contains "archived")

/-- getActiveMemories (store.ts 221-225). -/
def getActiveMemories (st : ProjectState) : List Memory :=
  st.memories.filter isActiveMem

/-- scoreSearch (store.ts 56-65): 2 per query token found in the content
    tokens, 3 per query token found in the lowercased tags. -/
def lowerStr (s : String) : String := String.mk (s.data.map Char.toLower)

def scoreSearch (query : List String) (m : Memory) : Nat :=
  let contentTokens := tokenize m.content
  let tagTokens := m.tags.map lowerStr
  query.foldl (fun score q =>
    (score + (if contentTokens.contains q then 2 else 0)) + (if tagTokens.contains q then 3 else 0)) 0

/-- The argument of addMemory: a record without the store-assigned fields
    (Omit of id, created, updated, confidence, accessCount). -/
structure MemoryCandidate where
  type : MemoryType
  content : String
  tags : List String
  supersedes : Option String := none
  mergedFrom : Option (List String) := none
  deriving DecidableEq, Repr, Inhabited

/-- The condition under which the dedup loop of addMemory (store.ts 177-186)
    supersedes an existing record: it is active (the loop ranges over
    getActiveMemories()), of the candidate's type, and its content is more
    than 0.6-similar to the candidate's. -/
def dedupHit (cand : MemoryCandidate) (m : Memory) : Bool :=
  isActiveMem m && (m.type == cand.type)
    && decide (simThreshold < jaccard (tokenize cand.content) (tokenize m.content))

/-- The dedup loop of addMemory (store.ts 174-186): walk the collection in
    order, tag the first record hit by dedupHit with "superseded" (stamping
    updated), then break. -/
def dedupPass (now : Time) (cand : MemoryCandidate) : List Memory → List Memory
  | [] => []
  | m :: ms =>
    if dedupHit cand m then { m with tags := m.tags ++ ["superseded"], updated := now } :: ms
    else m :: dedupPass now cand ms

/-- The explicit-supersession step of addMemory (store.ts 189-195): find the
    record with the named id; if present and not already superseded, tag it. -/
def explicitSupersede (now : Time) (sid : String) : List Memory → List Memory
  | [] => []
  | m :: ms =>
    if m.id == sid then
      (if m.tags.contains "superseded" then m :: ms
       else { m with tags := m.tags ++ ["superseded"], updated := now } :: ms)
    else m :: explicitSupersede now sid ms

def explicitPass (now : Time) (cand : MemoryCandidate) (ms : List Memory) : List Memory :=
  match cand.supersedes with
  | none => ms
  | some sid => explicitSupersede now sid ms

/-- addMemory (store.ts 170-209): dedup pass, explicit-supersession pass, then
    always append the fully-populated new record and persist.  The source's
    return type admits null but the body always returns the record. -/
def addMemory (now : Time) (newId : String) (cand : MemoryCandidate) (st : ProjectState) :
    Memory × ProjectState :=
  let full : Memory :=
    { id := newId, type := cand.type, content := cand.content, tags := cand.tags,
      created := now, updated := now, confidence := 1, accessCount := 0,
      supersedes := cand.supersedes, mergedFrom := cand.mergedFrom }
  let ms := explicitPass now cand (dedupPass now cand st.memories)
  (full, save now { st with memories := ms ++ [full] })

/-- deleteMemory (store.ts 211-217): splice out the record at the first index
    whose id matches; report false (and do not save) if there is none. -/
def deleteMemory (now : Time) (mid : String) (st : ProjectState) : Bool × ProjectState :=
  match st.memories.findIdx? (fun m => m.id == mid) with
  | none => (false, st)
  | some i => (true, save now { st with memories := st.memories.eraseIdx i })

/-- Rank used to model a stable JS sort with a comparator on a key: descending
    by key, with ties in the order of the attached original positions. -/
def rankR {α β : Type} [LinearOrder β] (key : α → β) : (Nat × α) → (Nat × α) → Prop :=
  fun a b => key b.2 < key a.2 ∨ (key a.2 = key b.2 ∧ a.1 ≤ b.1)

instance rankRDecidable {α β : Type} [LinearOrder β] (key : α → β) : DecidableRel (rankR key) :=
  fun a b => by unfold rankR; infer_instance

instance rankRTrans {α β : Type} [LinearOrder β] (key : α → β) : IsTrans (Nat × α) (rankR key) := by
  constructor
  rintro a b c (h1 | ⟨h1, h1'⟩) (h2 | ⟨h2, h2'⟩)
  · exact Or.inl (h2.trans h1)
  · exact Or.inl (h2 ▸ h1)
  · exact Or.inl (h1 ▸ h2)
  · exact Or.inr ⟨h1.trans h2, h1'.trans h2'⟩

instance rankRTotal {α β : Type} [LinearOrder β] (key : α → β) : IsTotal (Nat × α) (rankR key) := by
  constructor
  intro a b
  rcases lt_trichotomy (key a.2) (key b.2) with h | h | h
  · exact Or.inr (Or.inl h)
  · rcases le_total a.1 b.1 with h' | h'
    · exact Or.inl (Or.inr ⟨h, h'⟩)
    · exact Or.inr (Or.inr ⟨h.symm, h'⟩)
  · exact Or.inl (Or.inl h)

/-- Stable descending sort by key of a position-tagged list: the semantics of
    JS Array.prototype.sort (stable per spec) with comparator (a,b) => key b - key a. -/
def stableSortDesc {α β : Type} [LinearOrder β] (key : α → β) (l : List (Nat × α)) :
    List (Nat × α) :=
  List.insertionSort (rankR key) l

/-- The active records tagged with their positions in the collection. -/
def activeIdx (st : ProjectState) : List (Nat × Memory) :=
  st.memories.enum.filter (fun p => isActiveMem p.2)

/-- The scored pipeline of searchMemories (store.ts 246-250) before slicing:
    active records with positive score, stably sorted by descending score. -/
def searchRanked (queryTokens : List String) (st : ProjectState) : List (Nat × Memory) :=
  stableSortDesc (scoreSearch queryTokens)
    ((activeIdx st).filter (fun p => decide (0 < scoreSearch queryTokens p.2)))

def bumpAccess (m : Memory) : Memory := { m with accessCount := m.accessCount + 1 }

/-- Increment accessCount of the record at position i (the in-place
    s.memory.accessCount++ of store.ts 253-255). -/
def bumpAt (ms : List Memory) (i : Nat) : List Memory :=
  match ms.get? i with
  | some m => ms.set i (bumpAccess m)
  | none => ms

/-- searchMemories (store.ts 241-259). -/
def searchMemories (now : Time) (query : String) (limit : Nat) (st : ProjectState) :
    List Memory × ProjectState :=
  let queryTokens := tokenize query
  if queryTokens.length = 0 then ([], st)
  else
    let scored := (searchRanked queryTokens st).take limit
    let newMems := scored.foldl (fun ms p => bumpAt ms p.1) st.memories
    let result := scored.map (fun p => bumpAccess p.2)
    if scored.length = 0 then (result, st)
    else (result, save now { st with memories := newMems })

/-- decayConfidence for one record (store.ts 281-291). -/
def decayOne (now : Time) (m : Memory) : Memory :=
  if m.tags.contains "superseded" || m.tags.contains "archived" then m
  else
    let ageDays : ℚ := ((now - m.updated : Int) : ℚ) / 86400000
    match m.type with
    | MemoryType.progress => { m with confidence := max 0 (1 - ageDays / 7) }
    | MemoryType.context => { m with confidence := max 0 (1 - ageDays / 30) }
    | _ => m

/-- decayConfidence (store.ts 279-293). -/
def decayConfidence (now : Time) (st : ProjectState) : ProjectState :=
  save now { st with memories := st.memories.map (decayOne now) }

/-- needsConsolidation (store.ts 297-300). -/
def needsConsolidation (st : ProjectState) : Bool :=
  decide (80 < (getActiveMemories st).length)
    || (decide (0 < st.extractionCount) && decide (st.extractionCount % 10 = 0))

/-- One merge entry of a consolidation plan (store.ts 306). -/
structure MergeEntry where
  content : String
  tags : List String
  sources : List String
  deriving DecidableEq, Repr, Inhabited

structure ConsolidationPlan where
  keep : List String
  merge : List MergeEntry
  drop : List String
  deriving DecidableEq, Repr, Inhabited

/-- Find the first record with the given id and push tag onto it, stamping
    updated (the find-then-push pattern of store.ts 310-316 and 321-327);
    a missing id leaves the list unchanged. -/
def tagFirstWith (tag : String) (now : Time) (sid : String) : List Memory → List Memory
  | [] => []
  | m :: ms =>
    if m.id == sid then { m with tags := m.tags ++ [tag], updated := now } :: ms
    else m :: tagFirstWith tag now sid ms

/-- The find-then-tag loop applied to each id of a list in order. -/
def tagEach (tag : String) (now : Time) (ids : List String) (ms : List Memory) : List Memory :=
  ids.foldl (fun acc i => tagFirstWith tag now i acc) ms

/-- The drop phase of applyConsolidation (store.ts 310-316). -/
def dropPhase (now : Time) (dropIds : List String) (ms : List Memory) : List Memory :=
  tagEach "archived" now dropIds ms

/-- Type inherited from the first listed source, with the "context" fallback
    (store.ts 330-331); an empty source list finds nothing. -/
def mergeType (ms : List Memory) (sources : List String) : MemoryType :=
  match sources with
  | [] => MemoryType.context
  | s0 :: _ =>
    match ms.find? (fun m => m.id == s0) with
    | some m => m.type
    | none => MemoryType.context

/-- The record synthesized for one merge entry (store.ts 333-344). -/
def mergedRecord (now : Time) (freshId : String) (tagged : List Memory) (e : MergeEntry) :
    Memory :=
  { id := freshId, type := mergeType tagged e.sources, content := e.content,
    tags := e.tags, created := now, updated := now, confidence := 1,
    accessCount := 0, supersedes := none, mergedFrom := some e.sources }

/-- One merge entry applied (store.ts 319-345): tag every listed source
    superseded, then append the synthesized record. -/
def applyMergeEntry (now : Time) (freshId : String) (ms : List Memory) (e : MergeEntry) :
    List Memory :=
  let tagged := tagEach "superseded" now e.sources ms
  tagged ++ [mergedRecord now freshId tagged e]

/-- The merge loop of applyConsolidation; k indexes the loop iteration whose
    generated fresh id is mkId k. -/
def mergePhase (now : Time) (mkId : Nat → String) : Nat → List MergeEntry → List Memory → List Memory
  | _, [], ms => ms
  | k, e :: es, ms => mergePhase now mkId (k + 1) es (applyMergeEntry now (mkId k) ms e)

/-- The keep side of the prune filter (store.ts 349-354): a record is removed
    exactly when it is tagged archived and its updated is older than 14 days. -/
def pruneKeep (now : Time) (m : Memory) : Bool :=
  !(m.tags.contains "archived" && decide (m.updated < now - 14 * 86400000))

def prunePhase (now : Time) (ms : List Memory) : List Memory :=
  ms.filter (pruneKeep now)

/-- The record list after the drop and merge phases, before pruning. -/
def consolidatedMems (now : Time) (mkId : Nat → String) (plan : ConsolidationPlan)
    (ms : List Memory) : List Memory :=
  mergePhase now mkId 0 plan.merge (dropPhase now plan.drop ms)

/-- applyConsolidation (store.ts 306-358). -/
def applyConsolidation (now : Time) (mkId : Nat → String) (plan : ConsolidationPlan)
    (st : ProjectState) : ProjectState :=
  save now { st with memories := prunePhase now (consolidatedMems now mkId plan st.memories),
                     lastConsolidation := some now }

/-- TYPE_LINE_BUDGET (store.ts 13-20). -/
def TYPE_LINE_BUDGET : MemoryType → Nat
  | MemoryType.architecture => 25
  | MemoryType.decision => 25
  | MemoryType.pattern => 25
  | MemoryType.gotcha => 20
  | MemoryType.progress => 30
  | MemoryType.context => 15

/-- TYPE_ORDER (store.ts 22-24). -/
def TYPE_ORDER : List MemoryType :=
  [MemoryType.architecture, MemoryType.decision, MemoryType.pattern,
   MemoryType.gotcha, MemoryType.progress, MemoryType.context]

/-- TYPE_LABELS (store.ts 26-33). -/
def TYPE_LABELS : MemoryType → String
  | MemoryType.architecture => "## Architecture"
  | MemoryType.decision => "## Key Decisions"
  | MemoryType.pattern => "## Patterns & Conventions"
  | MemoryType.gotcha => "## Gotchas & Pitfalls"
  | MemoryType.progress => "## Current Progress"
  | MemoryType.context => "## Context"

structure MemoryCounts where
  active : Nat
  archived : Nat
  superseded : Nat
  total : Nat
  deriving DecidableEq, Repr

/-- getAllMemoryCount (store.ts 377-384). -/
def getAllMemoryCount (st : ProjectState) : MemoryCounts :=
  { active := (st.memories.filter isActiveMem).length,
    archived := (st.memories.filter (fun m => m.tags.contains "archived")).length,
    superseded := (st.memories.filter (fun m => m.tags.contains "superseded")).length,
    total := st.memories.length }

/-- The importance blend confidence * (1 + accessCount/10) (store.ts 413-416). -/
def importance (m : Memory) : ℚ := m.confidence * (1 + (m.accessCount : ℚ) / 10)

/-- Active records above the confidence floor (store.ts 390). -/
def confActive (st : ProjectState) : List Memory :=
  (getActiveMemories st).filter (fun m => decide (confFloor < m.confidence))

/-- The per-type group of the digest (store.ts 405-409); grouping an array by
    key preserves the order within each group, which is the filter below. -/
def typeGroup (st : ProjectState) (t : MemoryType) : List Memory :=
  (confActive st).filter (fun m => m.type == t)

/-- The in-group stable importance sort (store.ts 412-418). -/
def sortByImportance (g : List Memory) : List Memory :=
  (stableSortDesc importance g.enum).map Prod.snd

/-- The mutable budget/surplus/overBudget trio of store.ts 421-423. -/
structure BudgetState where
  budgets : MemoryType → Nat
  surplus : Nat
  overBudget : List MemoryType

/-- One iteration of the budget loop (store.ts 425-433). -/
def budgetStep (count : MemoryType → Nat) (acc : BudgetState) (t : MemoryType) : BudgetState :=
  let c := count t
  let b := acc.budgets t
  if c < b then
    { acc with surplus := acc.surplus + (b - c),
               budgets := fun u => if u = t then c else acc.budgets u }
  else if b < c then
    { acc with overBudget := acc.overBudget ++ [t] }
  else acc

def computeBudgets (count : MemoryType → Nat) : BudgetState :=
  TYPE_ORDER.foldl (budgetStep count) ⟨TYPE_LINE_BUDGET, 0, []⟩

/-- The redistribution step (store.ts 436-441): each over-budget type gains the
    floor-divided equal share of the surplus. -/
def finalBudgets (count : MemoryType → Nat) : MemoryType → Nat :=
  let bs := computeBudgets count
  let extra := bs.surplus / bs.overBudget.length
  if 0 < bs.overBudget.length ∧ 0 < bs.surplus then
    bs.overBudget.foldl (fun b t => fun u => if u = t then b u + extra else b u) bs.budgets
  else bs.budgets

/-- Tags rendered next to a digest line (store.ts 457-459). -/
def visibleTags (m : Memory) : List String :=
  m.tags.filter (fun t => !(t == "superseded") && !(t == "archived"))

/-- One rendered record line (store.ts 452-460), with the 120-character
    truncation (JS code units modelled as characters). -/
def renderMemLine (m : Memory) : String :=
  let line := if decide (120 < m.content.length) then String.mk (m.content.data.take 117) ++ "..."
              else m.content
  let tagStr := if (visibleTags m).length ≠ 0 then " [" ++ String.intercalate ", " (visibleTags m) ++ "]"
                else ""
  "- " ++ line ++ tagStr

/-- One type's section of the digest (store.ts 444-468): label, up to limit
    record lines, an overflow marker, a blank separator; empty groups are
    skipped entirely. -/
def sectionLines (t : MemoryType) (g : List Memory) (limit : Nat) : List String :=
  if g.length = 0 then []
  else
    [TYPE_LABELS t] ++ (g.take limit).map renderMemLine
      ++ (if limit < g.length then
            ["- _...and " ++ toString (g.length - limit) ++ " more (use memory_search to find them)_"]
          else [])
      ++ [""]

/-- generateConsciousness (store.ts 388-473).  The header's date rendering of
    lastUpdated (an ISO-string split in the source) is abstracted to toString
    of the millisecond timestamp. -/
def generateConsciousness (st : ProjectState) : String :=
  let counts := getAllMemoryCount st
  let cnt := fun t => (typeGroup st t).length
  let budgets := finalBudgets cnt
  let header :=
    ["# " ++ st.project]
      ++ (if st.description ≠ "" then [st.description] else [])
      ++ ["\n_Last updated: " ++ toString st.lastUpdated ++ " | " ++ toString counts.active
            ++ " active memories, " ++ toString counts.total ++ " total_\n"]
  let body := TYPE_ORDER.foldl
    (fun acc t => acc ++ sectionLines t (sortByImportance (typeGroup st t)) (budgets t)) []
  String.intercalate "\n"
    (header ++ body ++ ["_For deeper context, use memory_search, memory_related, or memory_ask tools._"])

/-! Helper lemmas shared by the claim theorems. -/

lemma getD_map_of_lt {α β : Type} (f : α → β) (l : List α) (i : Nat) (d : β) (d' : α)
    (h : i < l.length) : (l.map f).getD i d = f (l.getD i d') := by
  simp [List.getD_eq_getElem?_getD, List.getElem?_map, List.getElem?_eq_getElem h]

lemma findIdx?_append_cons {α : Type} (p : α → Bool) (l1 : List α) (a : α) (l2 : List α)
    (h1 : ∀ x ∈ l1, p x = false) (ha : p a = true) :
    (l1 ++ a :: l2).findIdx? p = some l1.length := by
  induction l1 with
  | nil => simp [List.findIdx?_cons, ha]
  | cons x xs ih =>
    have hx := h1 x (by simp)
    have ih' := ih (fun y hy => h1 y (by simp [hy]))
    rw [List.cons_append, List.findIdx?_cons, hx, if_neg Bool.false_ne_true,
      List.findIdx?_succ, ih']
    simp

lemma eraseIdx_append_cons {α : Type} (l1 : List α) (a : α) (l2 : List α) :
    (l1 ++ a :: l2).eraseIdx l1.length = l1 ++ l2 := by
  induction l1 with
  | nil => rfl
  | cons x xs ih => simpa using ih

lemma dedupPass_length (now : Time) (cand : MemoryCandidate) (ms : List Memory) :
    (dedupPass now cand ms).length = ms.length := by
  induction ms with
  | nil => rfl
  | cons m ms ih =>
    by_cases h : dedupHit cand m = true
    · simp [dedupPass, h]
    · have h' : dedupHit cand m = false := by simpa using h
      simp [dedupPass, h', ih]

/-- dedupPass tags exactly the first hit, leaving every other position as is. -/
lemma dedupPass_getD_hit (now : Time) (cand : MemoryCandidate) (ms : List Memory) (i : Nat)
    (hi : i < ms.length) (hc : dedupHit cand (ms.getD i dummyMemory) = true)
    (hf : ∀ j, j < i → dedupHit cand (ms.getD j dummyMemory) = false) :
    (dedupPass now cand ms).getD i dummyMemory
        = { ms.getD i dummyMemory with
            tags := (ms.getD i dummyMemory).tags ++ ["superseded"], updated := now }
      ∧ ∀ k, k ≠ i → (dedupPass now cand ms).getD k dummyMemory = ms.getD k dummyMemory := by
  induction ms generalizing i with
  | nil => simp at hi
  | cons m ms ih =>
    cases i with
    | zero =>
      have hm : dedupHit cand m = true := by simpa using hc
      refine ⟨by simp [dedupPass, hm], ?_⟩
      intro k hk
      cases k with
      | zero => exact absurd rfl hk
      | succ k => simp [dedupPass, hm]
    | succ i =>
      have hm : dedupHit cand m = false := by simpa using hf 0 (Nat.succ_pos i)
      have hrec : dedupPass now cand (m :: ms) = m :: dedupPass now cand ms := by
        simp [dedupPass, hm]
      have hi' : i < ms.length := by simpa using hi
      have hc' : dedupHit cand (ms.getD i dummyMemory) = true := by simpa using hc
      have hf' : ∀ j, j < i → dedupHit cand (ms.getD j dummyMemory) = false := by
        intro j hj
        have := hf (j + 1) (by omega)
        simpa using this
      obtain ⟨ih1, ih2⟩ := ih i hi' hc' hf'
      rw [hrec]
      constructor
      · simpa using ih1
      · intro k hk
        cases k with
        | zero => simp
        | succ k =>
          have := ih2 k (by omega)
          simpa using this

lemma explicitSupersede_length (now : Time) (sid : String) (ms : List Memory) :
    (explicitSupersede now sid ms).length = ms.length := by
  induction ms with
  | nil => rfl
  | cons m ms ih =>
    by_cases h : m.id == sid
    · by_cases h2 : "superseded" ∈ m.tags <;> simp [explicitSupersede, h, h2]
    · have h' : (m.id == sid) = false := by simpa using h
      simp [explicitSupersede, h', ih]

lemma explicitPass_length (now : Time) (cand : MemoryCandidate) (ms : List Memory) :
    (explicitPass now cand ms).length = ms.length := by
  cases h : cand.supersedes with
  | none => simp [explicitPass, h]
  | some sid => simp [explicitPass, h, explicitSupersede_length]

lemma explicitPass_none (now : Time) (cand : MemoryCandidate) (ms : List Memory)
    (h : cand.supersedes = none) : explicitPass now cand ms = ms := by
  simp [explicitPass, h]

/-- The Bool dedup condition unfolded to the claim-level conjunction. -/
lemma dedupHit_iff (cand : MemoryCandidate) (m : Memory) :
    dedupHit cand m = true ↔
      (isActiveMem m = true ∧ m.type = cand.type
        ∧ simThreshold < jaccard (tokenize cand.content) (tokenize m.content)) := by
  simp [dedupHit, and_assoc]

lemma jaccard_nil_nil : jaccard [] [] = 1 := rfl

lemma jaccard_nil_left (b : List String) (hb : b ≠ []) : jaccard [] b = 0 := by
  have hlen : b.length ≠ 0 := by simpa using fun h => hb (List.length_eq_zero.mp h)
  simp [jaccard, hlen]

/-- With an empty candidate token set, the dedup condition holds exactly on
    active same-type records whose own token set is empty. -/
lemma dedupHit_of_empty (cand : MemoryCandidate) (hempty : tokenize cand.content = [])
    (m : Memory) :
    dedupHit cand m = true ↔
      (isActiveMem m = true ∧ m.type = cand.type ∧ tokenize m.content = []) := by
  rw [dedupHit_iff, hempty]
  constructor
  · rintro ⟨h1, h2, h3⟩
    refine ⟨h1, h2, ?_⟩
    by_contra hne
    rw [jaccard_nil_left _ hne] at h3
    exact absurd h3 (by decide)
  · rintro ⟨h1, h2, h3⟩
    exact ⟨h1, h2, by rw [h3]; decide⟩

lemma tagEach_cons (tag : String) (now : Time) (s : String) (L : List String) (ms : List Memory) :
    tagEach tag now (s :: L) ms = tagEach tag now L (tagFirstWith tag now s ms) := rfl

lemma tagFirstWith_map_id (tag : String) (now : Time) (sid : String) (ms : List Memory) :
    (tagFirstWith tag now sid ms).map Memory.id = ms.map Memory.id := by
  induction ms with
  | nil => rfl
  | cons m ms ih =>
    by_cases h : (m.id == sid) = true
    · simp [tagFirstWith, h]
    · have h' : (m.id == sid) = false := by simpa using h
      simp [tagFirstWith, h', ih]

lemma tagEach_map_id (tag : String) (now : Time) (L : List String) :
    ∀ ms : List Memory, (tagEach tag now L ms).map Memory.id = ms.map Memory.id := by
  induction L with
  | nil => intro ms; rfl
  | cons s L ih =>
    intro ms
    rw [tagEach_cons, ih, tagFirstWith_map_id]

/-- Every record survives tagFirstWith with its identifying fields intact: only
    tags may grow and updated may be stamped to now. -/
lemma tagFirstWith_preserve (tag : String) (now : Time) (sid : String) (ms : List Memory)
    (r : Memory) (hr : r ∈ ms) :
    ∃ r' ∈ tagFirstWith tag now sid ms, r'.id = r.id ∧ r'.type = r.type
      ∧ r'.content = r.content ∧ r'.confidence = r.confidence ∧ r'.accessCount = r.accessCount
      ∧ r'.mergedFrom = r.mergedFrom
      ∧ (∀ x, x ∈ r.tags → x ∈ r'.tags) ∧ (r.updated = now → r'.updated = now) := by
  induction ms with
  | nil => simp at hr
  | cons m ms ih =>
    rcases List.mem_cons.mp hr with hr | hr
    · subst hr
      by_cases h : (r.id == sid) = true
      · refine ⟨{ r with tags := r.tags ++ [tag], updated := now }, ?_, rfl, rfl, rfl, rfl, rfl,
          rfl, ?_, ?_⟩
        · simp [tagFirstWith, h]
        · intro x hx
          simp [hx]
        · intro _
          rfl
      · have h' : (r.id == sid) = false := by simpa using h
        refine ⟨r, ?_, rfl, rfl, rfl, rfl, rfl, rfl, fun x hx => hx, fun hu => hu⟩
        simp [tagFirstWith, h']
    · by_cases h : (m.id == sid) = true
      · exact ⟨r, by simp [tagFirstWith, h, hr], rfl, rfl, rfl, rfl, rfl, rfl,
          fun x hx => hx, fun hu => hu⟩
      · have h' : (m.id == sid) = false := by simpa using h
        obtain ⟨r', hr', hprops⟩ := ih hr
        exact ⟨r', by simp [tagFirstWith, h', hr'], hprops⟩

lemma tagEach_preserve (tag : String) (now : Time) (L : List String) :
    ∀ ms : List Memory, ∀ r ∈ ms,
      ∃ r' ∈ tagEach tag now L ms, r'.id = r.id ∧ r'.type = r.type ∧ r'.content = r.content
        ∧ r'.confidence = r.confidence ∧ r'.accessCount = r.accessCount
        ∧ r'.mergedFrom = r.mergedFrom
        ∧ (∀ x, x ∈ r.tags → x ∈ r'.tags) ∧ (r.updated = now → r'.updated = now) := by
  induction L with
  | nil =>
    intro ms r hr
    exact ⟨r, hr, rfl, rfl, rfl, rfl, rfl, rfl, fun x hx => hx, fun h => h⟩
  | cons s L ih =>
    intro ms r hr
    obtain ⟨r1, hr1, e1, e2, e3, e4, e5, e6, e7, e8⟩ := tagFirstWith_preserve tag now s ms r hr
    obtain ⟨r2, hr2, f1, f2, f3, f4, f5, f6, f7, f8⟩ :=
      ih (tagFirstWith tag now s ms) r1 hr1
    rw [tagEach_cons]
    exact ⟨r2, hr2, f1.trans e1, f2.trans e2, f3.trans e3, f4.trans e4, f5.trans e5,
      f6.trans e6, fun x hx => f7 x (e7 x hx), fun hu => f8 (e8 hu)⟩

/-- A record whose id is not the searched id passes through untouched. -/
lemma tagFirstWith_mem_ne (tag : String) (now : Time) (sid : String) (ms : List Memory)
    (r : Memory) (hr : r ∈ ms) (hne : r.id ≠ sid) : r ∈ tagFirstWith tag now sid ms := by
  induction ms with
  | nil => simp at hr
  | cons m ms ih =>
    rcases List.mem_cons.mp hr with hr | hr
    · subst hr
      have h' : (r.id == sid) = false := beq_eq_false_iff_ne.mpr hne
      simp [tagFirstWith, h']
    · by_cases h : (m.id == sid) = true
      · simp [tagFirstWith, h, hr]
      · have h' : (m.id == sid) = false := by simpa using h
        simp [tagFirstWith, h', ih hr]

lemma tagEach_mem_ne (tag : String) (now : Time) (L : List String) :
    ∀ ms : List Memory, ∀ r ∈ ms, r.id ∉ L → r ∈ tagEach tag now L ms := by
  induction L with
  | nil => intro ms r hr _; exact hr
  | cons s L ih =>
    intro ms r hr hne
    rw [tagEach_cons]
    refine ih _ r (tagFirstWith_mem_ne tag now s ms r hr ?_) ?_
    · intro h
      exact hne (by rw [h]; exact List.mem_cons_self s L)
    · intro h
      exact hne (List.mem_cons_of_mem _ h)

/-- tagFirstWith on a present id (ids unique) really tags that record. -/
lemma tagFirstWith_establish (tag : String) (now : Time) (ms : List Memory)
    (hnd : (ms.map Memory.id).Nodup) (m : Memory) (hm : m ∈ ms) :
    ∃ r ∈ tagFirstWith tag now m.id ms, r.id = m.id ∧ r.type = m.type ∧ r.content = m.content
      ∧ tag ∈ r.tags ∧ r.updated = now := by
  induction ms with
  | nil => simp at hm
  | cons h0 ms ih =>
    rcases List.mem_cons.mp hm with hm | hm
    · subst hm
      have hb : (m.id == m.id) = true := by simp
      refine ⟨{ m with tags := m.tags ++ [tag], updated := now }, ?_, rfl, rfl, rfl, ?_, rfl⟩
      · simp [tagFirstWith, hb]
      · simp
    · have hne : h0.id ≠ m.id := by
        intro he
        rw [List.map_cons, List.nodup_cons] at hnd
        exact hnd.1 (he ▸ List.mem_map_of_mem Memory.id hm)
      have hb : (h0.id == m.id) = false := beq_eq_false_iff_ne.mpr hne
      have hnd' : (ms.map Memory.id).Nodup := by
        rw [List.map_cons, List.nodup_cons] at hnd
        exact hnd.2
      obtain ⟨r, hrmem, hprops⟩ := ih hnd' hm
      exact ⟨r, by simp [tagFirstWith, hb, hrmem], hprops⟩

lemma tagEach_establish (tag : String) (now : Time) (L : List String) :
    ∀ ms : List Memory, (ms.map Memory.id).Nodup → ∀ m ∈ ms, m.id ∈ L →
      ∃ r ∈ tagEach tag now L ms, r.id = m.id ∧ r.type = m.type ∧ r.content = m.content
        ∧ tag ∈ r.tags ∧ r.updated = now := by
  induction L with
  | nil =>
    intro ms _ m _ hL
    simp at hL
  | cons s L ih =>
    intro ms hnd m hm hL
    rw [tagEach_cons]
    by_cases hs : m.id = s
    · obtain ⟨r1, hr1, e1, e2, e3, e4, e5⟩ := tagFirstWith_establish tag now ms hnd m hm
      rw [hs] at hr1
      obtain ⟨r2, hr2, f1, f2, f3, f4, f5, f6, f7, f8⟩ := tagEach_preserve tag now L _ r1 hr1
      exact ⟨r2, hr2, f1.trans e1, f2.trans e2, f3.trans e3, f7 tag e4, f8 e5⟩
    · have hL' : m.id ∈ L := by
        rcases List.mem_cons.mp hL with h | h
        · exact absurd h hs
        · exact h
      obtain ⟨m1, hm1, g1, g2, g3, g4, g5, g6, g7, g8⟩ := tagFirstWith_preserve tag now s ms m hm
      have hnd' : ((tagFirstWith tag now s ms).map Memory.id).Nodup := by
        rw [tagFirstWith_map_id]
        exact hnd
      obtain ⟨r, hrmem, p1, p2, p3, p4, p5⟩ := ih _ hnd' m1 hm1 (by rw [g1]; exact hL')
      exact ⟨r, hrmem, p1.trans g1, p2.trans g2, p3.trans g3, p4, p5⟩

lemma mergeType_cons_eq_getD (ms : List Memory) (s0 : String) (rest : List String) :
    mergeType ms (s0 :: rest)
      = ((ms.find? (fun m => m.id == s0)).map Memory.type).getD MemoryType.context := by
  cases h : ms.find? (fun m => m.id == s0) with
  | none => simp [mergeType, h]
  | some m => simp [mergeType, h]

lemma find?_type_tagFirstWith (tag : String) (now : Time) (sid : String) (ms : List Memory)
    (s0 : String) :
    ((tagFirstWith tag now sid ms).find? (fun m => m.id == s0)).map Memory.type
      = (ms.find? (fun m => m.id == s0)).map Memory.type := by
  induction ms with
  | nil => rfl
  | cons m ms ih =>
    by_cases h : (m.id == sid) = true
    · have hres : tagFirstWith tag now sid (m :: ms)
          = { m with tags := m.tags ++ [tag], updated := now } :: ms := by
        simp [tagFirstWith, h]
      rw [hres]
      by_cases h0 : (m.id == s0) = true
      · rw [List.find?_cons, List.find?_cons]
        simp [h0]
      · have h0' : (m.id == s0) = false := by simpa using h0
        rw [List.find?_cons, List.find?_cons]
        simp [h0']
    · have h' : (m.id == sid) = false := by simpa using h
      have hres : tagFirstWith tag now sid (m :: ms) = m :: tagFirstWith tag now sid ms := by
        simp [tagFirstWith, h']
      rw [hres]
      by_cases h0 : (m.id == s0) = true
      · rw [List.find?_cons, List.find?_cons]
        simp [h0]
      · have h0' : (m.id == s0) = false := by simpa using h0
        rw [List.find?_cons, List.find?_cons]
        simp [h0', ih]

lemma find?_type_tagEach (tag : String) (now : Time) (L : List String) :
    ∀ (ms : List Memory) (s0 : String),
      ((tagEach tag now L ms).find? (fun m => m.id == s0)).map Memory.type
        = (ms.find? (fun m => m.id == s0)).map Memory.type := by
  induction L with
  | nil => intro ms s0; rfl
  | cons s L ih =>
    intro ms s0
    rw [tagEach_cons, ih, find?_type_tagFirstWith]

lemma mergeType_tagEach (tag : String) (now : Time) (L : List String) (ms : List Memory)
    (srcs : List String) : mergeType (tagEach tag now L ms) srcs = mergeType ms srcs := by
  cases srcs with
  | nil => rfl
  | cons s0 rest =>
    rw [mergeType_cons_eq_getD, mergeType_cons_eq_getD, find?_type_tagEach]

lemma mergeType_append_not_mem (l l2 : List Memory) (srcs : List String)
    (h : ∀ r ∈ l2, ∀ s ∈ srcs, r.id ≠ s) :
    mergeType (l ++ l2) srcs = mergeType l srcs := by
  cases srcs with
  | nil => rfl
  | cons s0 rest =>
    rw [mergeType_cons_eq_getD, mergeType_cons_eq_getD]
    have hnone : l2.find? (fun m => m.id == s0) = none := by
      rw [List.find?_eq_none]
      intro x hx
      simpa using h x hx s0 (List.mem_cons_self s0 rest)
    rw [List.find?_append, hnone]
    cases l.find? (fun m => m.id == s0) <;> rfl

lemma applyMergeEntry_eq (now : Time) (fid : String) (ms : List Memory) (e : MergeEntry) :
    applyMergeEntry now fid ms e
      = tagEach "superseded" now e.sources ms
          ++ [mergedRecord now fid (tagEach "superseded" now e.sources ms) e] := rfl

lemma mergePhase_cons (now : Time) (mkId : Nat → String) (k0 : Nat) (e : MergeEntry)
    (es : List MergeEntry) (ms : List Memory) :
    mergePhase now mkId k0 (e :: es) ms
      = mergePhase now mkId (k0 + 1) es (applyMergeEntry now (mkId k0) ms e) := rfl

lemma applyMergeEntry_map_id (now : Time) (fid : String) (ms : List Memory) (e : MergeEntry) :
    (applyMergeEntry now fid ms e).map Memory.id = ms.map Memory.id ++ [fid] := by
  rw [applyMergeEntry_eq, List.map_append, tagEach_map_id]
  rfl

lemma applyMergeEntry_preserve (now : Time) (fid : String) (ms : List Memory) (e : MergeEntry)
    (r : Memory) (hr : r ∈ ms) :
    ∃ r' ∈ applyMergeEntry now fid ms e, r'.id = r.id ∧ r'.type = r.type ∧ r'.content = r.content
      ∧ r'.confidence = r.confidence ∧ r'.accessCount = r.accessCount
      ∧ r'.mergedFrom = r.mergedFrom
      ∧ (∀ x, x ∈ r.tags → x ∈ r'.tags) ∧ (r.updated = now → r'.updated = now) := by
  obtain ⟨r', hr', hp⟩ := tagEach_preserve "superseded" now e.sources ms r hr
  refine ⟨r', ?_, hp⟩
  rw [applyMergeEntry_eq]
  exact List.mem_append_left _ hr'

lemma applyMergeEntry_mem_ne (now : Time) (fid : String) (ms : List Memory) (e : MergeEntry)
    (r : Memory) (hr : r ∈ ms) (hne : r.id ∉ e.sources) : r ∈ applyMergeEntry now fid ms e := by
  rw [applyMergeEntry_eq]
  exact List.mem_append_left _ (tagEach_mem_ne "superseded" now e.sources ms r hr hne)

lemma mergePhase_preserve (now : Time) (mkId : Nat → String) (entries : List MergeEntry) :
    ∀ (k0 : Nat) (ms : List Memory) (r : Memory), r ∈ ms →
      ∃ r' ∈ mergePhase now mkId k0 entries ms, r'.id = r.id ∧ r'.type = r.type
        ∧ r'.content = r.content ∧ r'.confidence = r.confidence
        ∧ r'.accessCount = r.accessCount ∧ r'.mergedFrom = r.mergedFrom
        ∧ (∀ x, x ∈ r.tags → x ∈ r'.tags) ∧ (r.updated = now → r'.updated = now) := by
  induction entries with
  | nil =>
    intro k0 ms r hr
    exact ⟨r, hr, rfl, rfl, rfl, rfl, rfl, rfl, fun x hx => hx, fun h => h⟩
  | cons e es ih =>
    intro k0 ms r hr
    obtain ⟨r1, hr1, e1, e2, e3, e4, e5, e6, e7, e8⟩ :=
      applyMergeEntry_preserve now (mkId k0) ms e r hr
    obtain ⟨r2, hr2, f1, f2, f3, f4, f5, f6, f7, f8⟩ := ih (k0 + 1) _ r1 hr1
    rw [mergePhase_cons]
    exact ⟨r2, hr2, f1.trans e1, f2.trans e2, f3.trans e3, f4.trans e4, f5.trans e5,
      f6.trans e6, fun x hx => f7 x (e7 x hx), fun hu => f8 (e8 hu)⟩

lemma mergePhase_mem_ne (now : Time) (mkId : Nat → String) (entries : List MergeEntry) :
    ∀ (k0 : Nat) (ms : List Memory) (r : Memory), r ∈ ms →
      (∀ e ∈ entries, r.id ∉ e.sources) → r ∈ mergePhase now mkId k0 entries ms := by
  induction entries with
  | nil => intro k0 ms r hr _; exact hr
  | cons e es ih =>
    intro k0 ms r hr hne
    rw [mergePhase_cons]
    exact ih (k0 + 1) _ r
      (applyMergeEntry_mem_ne now (mkId k0) ms e r hr (hne e (List.mem_cons_self e es)))
      (fun e' he' => hne e' (List.mem_cons_of_mem _ he'))

lemma map_mkId_shift (mkId : Nat → String) (k0 n : Nat) :
    (List.range (n + 1)).map (fun j => mkId (k0 + j))
      = mkId k0 :: (List.range n).map (fun j => mkId (k0 + 1 + j)) := by
  rw [List.range_succ_eq_map, List.map_cons, List.map_map]
  refine congrArg₂ List.cons (by norm_num) ?_
  refine List.map_congr_left ?_
  intro a _
  show mkId (k0 + (a + 1)) = mkId (k0 + 1 + a)
  exact congrArg mkId (by omega)

lemma mergePhase_map_id (now : Time) (mkId : Nat → String) (entries : List MergeEntry) :
    ∀ (k0 : Nat) (ms : List Memory),
      (mergePhase now mkId k0 entries ms).map Memory.id
        = ms.map Memory.id ++ (List.range entries.length).map (fun j => mkId (k0 + j)) := by
  induction entries with
  | nil => intro k0 ms; simp [mergePhase]
  | cons e es ih =>
    intro k0 ms
    rw [mergePhase_cons, ih, applyMergeEntry_map_id, List.length_cons, map_mkId_shift]
    simp

lemma pruneKeep_of_updated_now (now : Time) (r : Memory) (h : r.updated = now) :
    pruneKeep now r = true := by
  simp [pruneKeep]
  exact Or.inr (by rw [h]; linarith)

/-- Through the whole merge loop, every record whose id is listed in some
    entry's sources ends up tagged superseded with updated stamped to now. -/
lemma mergePhase_establish (now : Time) (mkId : Nat → String) (entries : List MergeEntry) :
    ∀ (k0 : Nat) (ms : List Memory), (ms.map Memory.id).Nodup →
      (∀ a b, k0 ≤ a → a < k0 + entries.length → k0 ≤ b → b < k0 + entries.length →
        mkId a = mkId b → a = b) →
      (∀ m ∈ ms, ∀ j, k0 ≤ j → j < k0 + entries.length → m.id ≠ mkId j) →
      ∀ m ∈ ms, ∀ e ∈ entries, m.id ∈ e.sources →
      ∃ r ∈ mergePhase now mkId k0 entries ms, r.id = m.id ∧ r.type = m.type
        ∧ r.content = m.content ∧ "superseded" ∈ r.tags ∧ r.updated = now := by
  induction entries with
  | nil =>
    intro k0 ms _ _ _ m _ e he _
    simp at he
  | cons e0 es ih =>
    intro k0 ms hnd hinj hex m hm e he hsid
    rw [mergePhase_cons]
    have hms1id : (applyMergeEntry now (mkId k0) ms e0).map Memory.id
        = ms.map Memory.id ++ [mkId k0] := applyMergeEntry_map_id now (mkId k0) ms e0
    have hnd1 : ((applyMergeEntry now (mkId k0) ms e0).map Memory.id).Nodup := by
      rw [hms1id, List.nodup_append]
      refine ⟨hnd, List.nodup_singleton _, ?_⟩
      intro x hx hx1
      have hx' : x = mkId k0 := List.mem_singleton.mp hx1
      obtain ⟨m', hm', hid'⟩ := List.mem_map.mp hx
      exact hex m' hm' k0 (le_refl k0) (by simp) (by rw [hid', hx'])
    have hinj1 : ∀ a b, k0 + 1 ≤ a → a < k0 + 1 + es.length → k0 + 1 ≤ b →
        b < k0 + 1 + es.length → mkId a = mkId b → a = b := by
      intro a b ha1 ha2 hb1 hb2 hab
      exact hinj a b (by omega) (by simp only [List.length_cons]; omega) (by omega)
        (by simp only [List.length_cons]; omega) hab
    have hex1 : ∀ m' ∈ applyMergeEntry now (mkId k0) ms e0, ∀ j, k0 + 1 ≤ j →
        j < k0 + 1 + es.length → m'.id ≠ mkId j := by
      intro m' hm' j hj1 hj2
      have hmem : m'.id ∈ (applyMergeEntry now (mkId k0) ms e0).map Memory.id :=
        List.mem_map_of_mem Memory.id hm'
      rw [hms1id] at hmem
      rcases List.mem_append.mp hmem with h | h
      · obtain ⟨m'', hm'', hid''⟩ := List.mem_map.mp h
        rw [← hid'']
        exact hex m'' hm'' j (by omega) (by simp only [List.length_cons]; omega)
      · have hm0 : m'.id = mkId k0 := List.mem_singleton.mp h
        intro hcontra
        rw [hm0] at hcontra
        have := hinj k0 j (le_refl k0) (by simp only [List.length_cons]; omega) (by omega)
          (by simp only [List.length_cons]; omega) hcontra
        omega
    rcases List.mem_cons.mp he with rfl | herest
    · obtain ⟨r1, hr1, e1, e2, e3, e4, e5⟩ :=
        tagEach_establish "superseded" now e.sources ms hnd m hm hsid
      have hr1' : r1 ∈ applyMergeEntry now (mkId k0) ms e := by
        rw [applyMergeEntry_eq]
        exact List.mem_append_left _ hr1
      obtain ⟨r2, hr2, f1, f2, f3, f4, f5, f6, f7, f8⟩ :=
        mergePhase_preserve now mkId es (k0 + 1) _ r1 hr1'
      exact ⟨r2, hr2, f1.trans e1, f2.trans e2, f3.trans e3, f7 _ e4, f8 e5⟩
    · obtain ⟨m1, hm1, g1, g2, g3, g4, g5, g6, g7, g8⟩ :=
        applyMergeEntry_preserve now (mkId k0) ms e0 m hm
      obtain ⟨r, hr, p1, p2, p3, p4, p5⟩ :=
        ih (k0 + 1) _ hnd1 hinj1 hex1 m1 hm1 e herest (by rw [g1]; exact hsid)
      exact ⟨r, hr, p1.trans g1, p2.trans g2, p3.trans g3, p4, p5⟩

/-- The j-th merge entry's synthesized record, with its type resolved against
    the base collection, is present in the merge-loop result. -/
lemma mergePhase_merged (now : Time) (mkId : Nat → String) (base : List Memory)
    (entries : List MergeEntry) :
    ∀ (k0 : Nat) (ms : List Memory),
      (∀ e ∈ entries, ∀ s ∈ e.sources, ∀ j, k0 ≤ j → j < k0 + entries.length → s ≠ mkId j) →
      (∀ e ∈ entries, mergeType ms e.sources = mergeType base e.sources) →
      ∀ j e, entries.get? j = some e →
        mergedRecord now (mkId (k0 + j)) base e ∈ mergePhase now mkId k0 entries ms := by
  induction entries with
  | nil =>
    intro k0 ms _ _ j e hj
    simp at hj
  | cons e0 es ih =>
    intro k0 ms hfresh hMT j e hj
    rw [mergePhase_cons]
    have htagty : mergeType (tagEach "superseded" now e0.sources ms) e0.sources
        = mergeType base e0.sources := by
      rw [mergeType_tagEach]
      exact hMT e0 (List.mem_cons_self e0 es)
    cases j with
    | zero =>
      have he : e0 = e := by
        simpa using hj
      rw [← he]
      have hrec : mergedRecord now (mkId k0) (tagEach "superseded" now e0.sources ms) e0
          = mergedRecord now (mkId (k0 + 0)) base e0 := by
        simp [mergedRecord, htagty]
      have hmem1 : mergedRecord now (mkId (k0 + 0)) base e0
          ∈ applyMergeEntry now (mkId k0) ms e0 := by
        rw [applyMergeEntry_eq, ← hrec]
        exact List.mem_append_right _ (List.mem_singleton_self _)
      refine mergePhase_mem_ne now mkId es (k0 + 1) _ _ hmem1 ?_
      intro e' he' hcontra
      have hid : (mergedRecord now (mkId (k0 + 0)) base e0).id = mkId k0 := by
        simp [mergedRecord]
      rw [hid] at hcontra
      exact hfresh e' (List.mem_cons_of_mem _ he') _ hcontra k0 (le_refl k0)
        (by simp only [List.length_cons]; omega) rfl
    | succ j =>
      have hj' : es.get? j = some e := by
        simpa using hj
      have hfresh1 : ∀ e' ∈ es, ∀ s ∈ e'.sources, ∀ j', k0 + 1 ≤ j' →
          j' < k0 + 1 + es.length → s ≠ mkId j' := by
        intro e' he' s hs j' hj1 hj2
        exact hfresh e' (List.mem_cons_of_mem _ he') s hs j' (by omega)
          (by simp only [List.length_cons]; omega)
      have hMT1 : ∀ e' ∈ es,
          mergeType (applyMergeEntry now (mkId k0) ms e0) e'.sources
            = mergeType base e'.sources := by
        intro e' he'
        rw [applyMergeEntry_eq]
        rw [mergeType_append_not_mem]
        · rw [mergeType_tagEach]
          exact hMT e' (List.mem_cons_of_mem _ he')
        · intro r hr s hs
          have hrid : r.id = mkId k0 := by
            have := List.mem_singleton.mp hr
            rw [this]
            simp [mergedRecord]
          rw [hrid]
          intro hcontra
          exact hfresh e' (List.mem_cons_of_mem _ he') s hs k0 (le_refl k0)
            (by simp only [List.length_cons]; omega) hcontra.symm
      have := ih (k0 + 1) _ hfresh1 hMT1 j e hj'
      have harith : mkId (k0 + 1 + j) = mkId (k0 + (j + 1)) := congrArg mkId (by omega)
      rw [harith] at this
      exact this

lemma budgetStep_budgets_ne (count : MemoryType → Nat) (acc : BudgetState) (t u : MemoryType)
    (h : u ≠ t) : (budgetStep count acc t).budgets u = acc.budgets u := by
  by_cases h1 : count t < acc.budgets t
  · simp [budgetStep, h1, h]
  · by_cases h2 : acc.budgets t < count t
    · simp [budgetStep, h1, h2]
    · simp [budgetStep, h1, h2]

lemma budgetStep_budgets_self (count : MemoryType → Nat) (acc : BudgetState) (t : MemoryType) :
    (budgetStep count acc t).budgets t = min (count t) (acc.budgets t) := by
  by_cases h1 : count t < acc.budgets t
  · simp [budgetStep, h1]
    omega
  · by_cases h2 : acc.budgets t < count t
    · simp [budgetStep, h1, h2]
      omega
    · simp [budgetStep, h1, h2]
      omega

lemma budgetStep_surplus (count : MemoryType → Nat) (acc : BudgetState) (t : MemoryType) :
    (budgetStep count acc t).surplus
      = acc.surplus + (if count t < acc.budgets t then acc.budgets t - count t else 0) := by
  by_cases h1 : count t < acc.budgets t
  · simp [budgetStep, h1]
  · by_cases h2 : acc.budgets t < count t
    · simp [budgetStep, h1, h2]
    · simp [budgetStep, h1, h2]

lemma budgetStep_over (count : MemoryType → Nat) (acc : BudgetState) (t : MemoryType) :
    (budgetStep count acc t).overBudget
      = acc.overBudget ++ (if acc.budgets t < count t then [t] else []) := by
  by_cases h1 : count t < acc.budgets t
  · have h2 : ¬(acc.budgets t < count t) := by omega
    simp [budgetStep, h1, h2]
  · by_cases h2 : acc.budgets t < count t
    · simp [budgetStep, h1, h2]
    · simp [budgetStep, h1, h2]

lemma foldl_budgetStep_budgets (count : MemoryType → Nat) (ts : List MemoryType) :
    ∀ (acc : BudgetState) (t : MemoryType),
      (ts.foldl (budgetStep count) acc).budgets t
        = if t ∈ ts then min (count t) (acc.budgets t) else acc.budgets t := by
  induction ts with
  | nil => intro acc t; simp
  | cons s ts ih =>
    intro acc t
    rw [List.foldl_cons, ih]
    by_cases hst : t = s
    · rw [hst, budgetStep_budgets_self]
      by_cases hts : s ∈ ts
      · rw [if_pos hts, if_pos (List.mem_cons_self s ts)]
        omega
      · rw [if_neg hts, if_pos (List.mem_cons_self s ts)]
    · rw [budgetStep_budgets_ne count acc s t hst]
      by_cases hts : t ∈ ts
      · rw [if_pos hts, if_pos (List.mem_cons_of_mem s hts)]
      · rw [if_neg hts, if_neg (fun h => (List.mem_cons.mp h).elim hst hts)]

lemma foldl_budgetStep_surplus (count : MemoryType → Nat) (B : MemoryType → Nat)
    (ts : List MemoryType) :
    ∀ (acc : BudgetState), ts.Nodup → (∀ t ∈ ts, acc.budgets t = B t) →
      (ts.foldl (budgetStep count) acc).surplus
        = acc.surplus
            + (ts.map (fun t => if count t < B t then B t - count t else 0)).sum := by
  induction ts with
  | nil => intro acc _ _; simp
  | cons s ts ih =>
    intro acc hnd hb
    rw [List.foldl_cons]
    have hnd' := (List.nodup_cons.mp hnd).2
    have hs : s ∉ ts := (List.nodup_cons.mp hnd).1
    have hb' : ∀ t ∈ ts, (budgetStep count acc s).budgets t = B t := by
      intro t ht
      have hne : t ≠ s := fun he => hs (he ▸ ht)
      rw [budgetStep_budgets_ne count acc s t hne]
      exact hb t (List.mem_cons_of_mem _ ht)
    rw [ih _ hnd' hb', budgetStep_surplus, hb s (List.mem_cons_self s ts)]
    simp [Nat.add_assoc]

lemma foldl_budgetStep_over (count : MemoryType → Nat) (B : MemoryType → Nat)
    (ts : List MemoryType) :
    ∀ (acc : BudgetState), ts.Nodup → (∀ t ∈ ts, acc.budgets t = B t) →
      (ts.foldl (budgetStep count) acc).overBudget
        = acc.overBudget ++ ts.filter (fun t => decide (B t < count t)) := by
  induction ts with
  | nil => intro acc _ _; simp
  | cons s ts ih =>
    intro acc hnd hb
    rw [List.foldl_cons]
    have hnd' := (List.nodup_cons.mp hnd).2
    have hs : s ∉ ts := (List.nodup_cons.mp hnd).1
    have hb' : ∀ t ∈ ts, (budgetStep count acc s).budgets t = B t := by
      intro t ht
      have hne : t ≠ s := fun he => hs (he ▸ ht)
      rw [budgetStep_budgets_ne count acc s t hne]
      exact hb t (List.mem_cons_of_mem _ ht)
    rw [ih _ hnd' hb', budgetStep_over, hb s (List.mem_cons_self s ts)]
    by_cases h : B s < count s
    · simp [h, List.filter_cons]
    · simp [h, List.filter_cons]

lemma mem_TYPE_ORDER (t : MemoryType) : t ∈ TYPE_ORDER := by
  cases t <;> simp [TYPE_ORDER]

lemma TYPE_ORDER_nodup : TYPE_ORDER.Nodup := by decide

lemma computeBudgets_budgets (count : MemoryType → Nat) (t : MemoryType) :
    (computeBudgets count).budgets t = min (count t) (TYPE_LINE_BUDGET t) := by
  show (TYPE_ORDER.foldl (budgetStep count) ⟨TYPE_LINE_BUDGET, 0, []⟩).budgets t = _
  rw [foldl_budgetStep_budgets]
  simp [mem_TYPE_ORDER t]

lemma computeBudgets_surplus (count : MemoryType → Nat) :
    (computeBudgets count).surplus
      = (TYPE_ORDER.map (fun t =>
          if count t < TYPE_LINE_BUDGET t then TYPE_LINE_BUDGET t - count t else 0)).sum := by
  show (TYPE_ORDER.foldl (budgetStep count) ⟨TYPE_LINE_BUDGET, 0, []⟩).surplus = _
  rw [foldl_budgetStep_surplus count TYPE_LINE_BUDGET TYPE_ORDER _ TYPE_ORDER_nodup
    (fun t _ => rfl)]
  simp

lemma computeBudgets_over (count : MemoryType → Nat) :
    (computeBudgets count).overBudget
      = TYPE_ORDER.filter (fun t => decide (TYPE_LINE_BUDGET t < count t)) := by
  show (TYPE_ORDER.foldl (budgetStep count) ⟨TYPE_LINE_BUDGET, 0, []⟩).overBudget = _
  rw [foldl_budgetStep_over count TYPE_LINE_BUDGET TYPE_ORDER _ TYPE_ORDER_nodup
    (fun t _ => rfl)]
  rfl

lemma mem_computeBudgets_over (count : MemoryType → Nat) (t : MemoryType) :
    t ∈ (computeBudgets count).overBudget ↔ TYPE_LINE_BUDGET t < count t := by
  rw [computeBudgets_over, List.mem_filter]
  simp [mem_TYPE_ORDER t]

lemma foldl_addExtra (extra : Nat) (L : List MemoryType) (hnd : L.Nodup) :
    ∀ (b : MemoryType → Nat) (t : MemoryType),
      (L.foldl (fun b u => fun v => if v = u then b v + extra else b v) b) t
        = b t + (if t ∈ L then extra else 0) := by
  induction L with
  | nil => intro b t; simp
  | cons s L ih =>
    intro b t
    have hnd' := (List.nodup_cons.mp hnd).2
    have hs : s ∉ L := (List.nodup_cons.mp hnd).1
    rw [List.foldl_cons, ih hnd']
    by_cases hst : t = s
    · subst hst
      simp [hs]
    · simp [hst, List.mem_cons]

lemma finalBudgets_eq (count : MemoryType → Nat) (t : MemoryType) :
    finalBudgets count t
      = min (count t) (TYPE_LINE_BUDGET t)
          + (if TYPE_LINE_BUDGET t < count t ∧ 0 < (computeBudgets count).surplus then
              (computeBudgets count).surplus / (computeBudgets count).overBudget.length
            else 0) := by
  unfold finalBudgets
  by_cases hcond : 0 < (computeBudgets count).overBudget.length
      ∧ 0 < (computeBudgets count).surplus
  · rw [if_pos hcond]
    have hnd : (computeBudgets count).overBudget.Nodup := by
      rw [computeBudgets_over]
      exact List.Nodup.filter _ TYPE_ORDER_nodup
    rw [foldl_addExtra _ _ hnd, computeBudgets_budgets]
    by_cases ht : TYPE_LINE_BUDGET t < count t
    · rw [if_pos ((mem_computeBudgets_over count t).mpr ht), if_pos ⟨ht, hcond.2⟩]
    · rw [if_neg (fun hc => ht ((mem_computeBudgets_over count t).mp hc)),
        if_neg (fun hc => ht hc.1)]
  · rw [if_neg hcond, computeBudgets_budgets]
    by_cases ht : TYPE_LINE_BUDGET t < count t ∧ 0 < (computeBudgets count).surplus
    · exfalso
      apply hcond
      refine ⟨?_, ht.2⟩
      have := (mem_computeBudgets_over count t).mpr ht.1
      exact List.length_pos.mpr (fun he => by rw [he] at this; simp at this)
    · rw [if_neg ht]
      omega

lemma sortByImportance_length (g : List Memory) :
    (sortByImportance g).length = g.length := by
  unfold sortByImportance stableSortDesc
  rw [List.length_map, (List.perm_insertionSort _ _).length_eq, List.enum_length]

lemma score_foldl (ct tt : List String) (q : List String) :
    ∀ acc : Nat,
      q.foldl (fun score w =>
        (score + (if ct.contains w then 2 else 0)) + (if tt.contains w then 3 else 0)) acc
        = acc + 2 * (q.filter (fun w => ct.contains w)).length
            + 3 * (q.filter (fun w => tt.contains w)).length := by
  induction q with
  | nil =>
    intro acc
    simp
  | cons w q ih =>
    intro acc
    rw [List.foldl_cons, ih]
    by_cases h1 : w ∈ ct <;> by_cases h2 : w ∈ tt <;>
      simp [h1, h2, List.filter_cons] <;> omega

lemma scoreSearch_formula (q : List String) (m : Memory) :
    scoreSearch q m
      = 2 * (q.filter (fun w => (tokenize m.content).contains w)).length
        + 3 * (q.filter (fun w => (m.tags.map lowerStr).contains w)).length := by
  simp only [scoreSearch]
  rw [score_foldl]
  omega

lemma searchRanked_nil_of_tokens_nil (q : List String) (st : ProjectState) (h : q = []) :
    searchRanked q st = [] := by
  subst h
  show List.insertionSort _ ((activeIdx st).filter (fun p => decide (0 < scoreSearch [] p.2)))
      = []
  have hfil : (activeIdx st).filter (fun p => decide (0 < scoreSearch [] p.2)) = [] := by
    rw [List.filter_eq_nil]
    intro p _
    simp [scoreSearch]
  rw [hfil]
  rfl

lemma searchMemories_fst (now : Time) (q : String) (limit : Nat) (st : ProjectState) :
    (searchMemories now q limit st).1
      = ((searchRanked (tokenize q) st).take limit).map (fun p => bumpAccess p.2) := by
  by_cases h : (tokenize q).length = 0
  · have htq : tokenize q = [] := List.length_eq_zero.mp h
    simp only [searchMemories]
    rw [if_pos h, searchRanked_nil_of_tokens_nil _ _ htq]
    simp
  · simp only [searchMemories]
    rw [if_neg h]
    by_cases h2 : ((searchRanked (tokenize q) st).take limit).length = 0
    · rw [if_pos h2]
    · rw [if_neg h2]

lemma searchMemories_snd_of_take_nil (now : Time) (q : String) (limit : Nat) (st : ProjectState)
    (h : (searchRanked (tokenize q) st).take limit = []) :
    (searchMemories now q limit st).2 = st := by
  by_cases h0 : (tokenize q).length = 0
  · simp only [searchMemories]
    rw [if_pos h0]
  · simp only [searchMemories]
    rw [if_neg h0, if_pos (by rw [h]; rfl)]

lemma searchMemories_snd_of_take_ne (now : Time) (q : String) (limit : Nat) (st : ProjectState)
    (h : (searchRanked (tokenize q) st).take limit ≠ []) :
    (searchMemories now q limit st).2
      = save now { st with
          memories :=
            ((searchRanked (tokenize q) st).take limit).foldl
              (fun ms p => bumpAt ms p.1) st.memories } := by
  have h0 : ¬((tokenize q).length = 0) := by
    intro hc
    apply h
    rw [searchRanked_nil_of_tokens_nil _ _ (List.length_eq_zero.mp hc)]
    exact List.take_nil
  simp only [searchMemories]
  rw [if_neg h0, if_neg (fun hc => h (List.length_eq_zero.mp hc))]

lemma bumpAt_length (ms : List Memory) (i : Nat) : (bumpAt ms i).length = ms.length := by
  unfold bumpAt
  cases h : ms.get? i
  · rfl
  · simp

lemma bumpAt_getD (ms : List Memory) (i k : Nat) :
    (bumpAt ms i).getD k dummyMemory
      = if k = i ∧ i < ms.length then bumpAccess (ms.getD k dummyMemory)
        else ms.getD k dummyMemory := by
  unfold bumpAt
  cases h : ms.get? i with
  | none =>
    have hge : ¬(i < ms.length) := by
      intro hc
      rw [List.get?_eq_none] at h
      omega
    rw [if_neg (fun hc => hge hc.2)]
  | some m =>
    have hlt : i < ms.length := by
      by_contra hc
      rw [List.get?_eq_none.mpr (by omega)] at h
      exact Option.noConfusion h
    have hm : ms.getD i dummyMemory = m := by
      rw [List.getD_eq_getElem?_getD, ← List.get?_eq_getElem?, h]
      rfl
    by_cases hk : k = i
    · rw [hk, if_pos ⟨rfl, hlt⟩, List.getD_eq_getElem?_getD, List.getElem?_set_self hlt, hm]
      rfl
    · rw [if_neg (fun hc => hk hc.1), List.getD_eq_getElem?_getD,
        List.getElem?_set_ne (fun he => hk he.symm), ← List.getD_eq_getElem?_getD]

lemma foldl_bumpAt_length (S : List (Nat × Memory)) :
    ∀ ms : List Memory, (S.foldl (fun ms p => bumpAt ms p.1) ms).length = ms.length := by
  induction S with
  | nil => intro ms; rfl
  | cons p S ih =>
    intro ms
    rw [List.foldl_cons, ih, bumpAt_length]

lemma foldl_bumpAt_getD (S : List (Nat × Memory)) :
    ∀ ms : List Memory, (S.map Prod.fst).Nodup → ∀ k, k < ms.length →
      (S.foldl (fun ms p => bumpAt ms p.1) ms).getD k dummyMemory
        = if k ∈ S.map Prod.fst then bumpAccess (ms.getD k dummyMemory)
          else ms.getD k dummyMemory := by
  induction S with
  | nil =>
    intro ms _ k _
    simp
  | cons p S ih =>
    intro ms hnd k hk
    rw [List.map_cons] at hnd
    have hnd' := (List.nodup_cons.mp hnd).2
    have hp1 : p.1 ∉ S.map Prod.fst := (List.nodup_cons.mp hnd).1
    rw [List.foldl_cons, ih _ hnd' k (by rw [bumpAt_length]; exact hk), bumpAt_getD,
      List.map_cons]
    by_cases hkp : k = p.1
    · rw [hkp, if_neg hp1, if_pos ⟨rfl, by rw [← hkp]; exact hk⟩,
        if_pos (List.mem_cons_self _ _)]
    · by_cases hkS : k ∈ S.map Prod.fst
      · rw [if_pos hkS, if_neg (fun hc => hkp hc.1), if_pos (List.mem_cons_of_mem _ hkS)]
      · rw [if_neg hkS, if_neg (fun hc => hkp hc.1),
          if_neg (fun hc => (List.mem_cons.mp hc).elim hkp hkS)]

lemma searchRanked_take_fst_nodup (tq : List String) (st : ProjectState) (limit : Nat) :
    (((searchRanked tq st).take limit).map Prod.fst).Nodup := by
  have hsub : (activeIdx st).Sublist st.memories.enum := List.filter_sublist _
  have h1 : ((activeIdx st).map Prod.fst).Nodup := by
    have h2 : ((activeIdx st).map Prod.fst).Sublist (st.memories.enum.map Prod.fst) :=
      List.Sublist.map _ hsub
    rw [List.enum_map_fst] at h2
    exact List.Nodup.sublist h2 (List.nodup_range _)
  have hP : (((activeIdx st).filter
      (fun p => decide (0 < scoreSearch tq p.2))).map Prod.fst).Nodup :=
    List.Nodup.sublist (List.Sublist.map _ (List.filter_sublist _)) h1
  have hperm : (searchRanked tq st).Perm
      ((activeIdx st).filter (fun p => decide (0 < scoreSearch tq p.2))) :=
    List.perm_insertionSort _ _
  have hr : ((searchRanked tq st).map Prod.fst).Nodup :=
    ((hperm.map Prod.fst).symm).nodup hP
  rw [List.map_take]
  exact List.Nodup.sublist (List.take_sublist _ _) hr

lemma searchRanked_mem_props (tq : List String) (st : ProjectState) (p : Nat × Memory)
    (hp : p ∈ searchRanked tq st) :
    st.memories.get? p.1 = some p.2 ∧ p.1 < st.memories.length
      ∧ isActiveMem p.2 = true ∧ 0 < scoreSearch tq p.2 := by
  have hp' : p ∈ (activeIdx st).filter (fun p => decide (0 < scoreSearch tq p.2)) :=
    (List.perm_insertionSort _ _).subset hp
  have hscore : 0 < scoreSearch tq p.2 := by
    have := (List.mem_filter.mp hp').2
    simpa using this
  have hp2 : p ∈ activeIdx st := (List.mem_filter.mp hp').1
  have hact : isActiveMem p.2 = true := (List.mem_filter.mp hp2).2
  have hp3 : p ∈ st.memories.enum := (List.mem_filter.mp hp2).1
  have hget : st.memories.get? p.1 = some p.2 := List.mem_enum_iff_get?.mp hp3
  refine ⟨hget, ?_, hact, hscore⟩
  have hfst : p.1 ∈ st.memories.enum.map Prod.fst := List.mem_map_of_mem _ hp3
  rw [List.enum_map_fst] at hfst
  exact List.mem_range.mp hfst

/-! Claim theorems. -/

/-- C1: addMemory runs the similarity comparison over the collection in order
    and tags exactly the first record that is active, of the candidate's type,
    and strictly more than 0.6-similar by Jaccard on tokenized contents
    (appending "superseded" to its tags and stamping its updated timestamp),
    leaving every other record untouched by that comparison; and regardless of
    any supersession it always appends the fresh record (confidence 1,
    accessCount 0, created = updated = now) and persists — it never rejects
    the candidate. -/
theorem c1_addMemory (now : Time) (newId : String) (cand : MemoryCandidate) (st : ProjectState) :
    ((addMemory now newId cand st).2.memories
        = explicitPass now cand (dedupPass now cand st.memories)
            ++ [{ id := newId, type := cand.type, content := cand.content, tags := cand.tags,
                  created := now, updated := now, confidence := 1, accessCount := 0,
                  supersedes := cand.supersedes, mergedFrom := cand.mergedFrom }]
      ∧ (addMemory now newId cand st).2.memories.length = st.memories.length + 1
      ∧ (addMemory now newId cand st).2.memories.getD st.memories.length dummyMemory
          = { id := newId, type := cand.type, content := cand.content, tags := cand.tags,
              created := now, updated := now, confidence := 1, accessCount := 0,
              supersedes := cand.supersedes, mergedFrom := cand.mergedFrom }
      ∧ (addMemory now newId cand st).1
          = { id := newId, type := cand.type, content := cand.content, tags := cand.tags,
              created := now, updated := now, confidence := 1, accessCount := 0,
              supersedes := cand.supersedes, mergedFrom := cand.mergedFrom }
      ∧ (addMemory now newId cand st).2.lastUpdated = now)
    ∧ (∀ i, i < st.memories.length →
        (isActiveMem (st.memories.getD i dummyMemory) = true
          ∧ (st.memories.getD i dummyMemory).type = cand.type
          ∧ simThreshold < jaccard (tokenize cand.content)
              (tokenize (st.memories.getD i dummyMemory).content)) →
        (∀ j, j < i →
          ¬(isActiveMem (st.memories.getD j dummyMemory) = true
            ∧ (st.memories.getD j dummyMemory).type = cand.type
            ∧ simThreshold < jaccard (tokenize cand.content)
                (tokenize (st.memories.getD j dummyMemory).content))) →
        ((dedupPass now cand st.memories).getD i dummyMemory
            = { st.memories.getD i dummyMemory with
                tags := (st.memories.getD i dummyMemory).tags ++ ["superseded"], updated := now }
          ∧ (∀ k, k ≠ i →
              (dedupPass now cand st.memories).getD k dummyMemory
                = st.memories.getD k dummyMemory)
          ∧ (cand.supersedes = none →
              (addMemory now newId cand st).2.memories.getD i dummyMemory
                = { st.memories.getD i dummyMemory with
                    tags := (st.memories.getD i dummyMemory).tags ++ ["superseded"],
                    updated := now }
              ∧ ∀ k, k ≠ i → k < st.memories.length →
                  (addMemory now newId cand st).2.memories.getD k dummyMemory
                    = st.memories.getD k dummyMemory))) := by
  have hshape : (addMemory now newId cand st).2.memories
      = explicitPass now cand (dedupPass now cand st.memories)
          ++ [{ id := newId, type := cand.type, content := cand.content, tags := cand.tags,
                created := now, updated := now, confidence := 1, accessCount := 0,
                supersedes := cand.supersedes, mergedFrom := cand.mergedFrom }] := rfl
  have hlen : (explicitPass now cand (dedupPass now cand st.memories)).length
      = st.memories.length := by
    rw [explicitPass_length, dedupPass_length]
  constructor
  · refine ⟨hshape, ?_, ?_, rfl, rfl⟩
    · rw [hshape, List.length_append, hlen]
      rfl
    · rw [hshape, List.getD_eq_getElem?_getD, List.getElem?_append_right (by omega), hlen]
      simp
  · intro i hi hhit hfirst
    have hc : dedupHit cand (st.memories.getD i dummyMemory) = true :=
      (dedupHit_iff cand _).mpr hhit
    have hf : ∀ j, j < i → dedupHit cand (st.memories.getD j dummyMemory) = false := by
      intro j hj
      have := hfirst j hj
      rcases hb : dedupHit cand (st.memories.getD j dummyMemory) with _ | _
      · rfl
      · exact absurd ((dedupHit_iff cand _).mp hb) this
    obtain ⟨h1, h2⟩ := dedupPass_getD_hit now cand st.memories i hi hc hf
    refine ⟨h1, h2, ?_⟩
    intro hsup
    have hpass : explicitPass now cand (dedupPass now cand st.memories)
        = dedupPass now cand st.memories := explicitPass_none now cand _ hsup
    constructor
    · rw [hshape, hpass, List.getD_eq_getElem?_getD,
        List.getElem?_append_left (by rw [dedupPass_length]; omega)]
      rw [← List.getD_eq_getElem?_getD, h1]
    · intro k hk hklen
      rw [hshape, hpass, List.getD_eq_getElem?_getD,
        List.getElem?_append_left (by rw [dedupPass_length]; omega)]
      rw [← List.getD_eq_getElem?_getD, h2 k hk]

def c1Old : Memory :=
  { id := "m1", type := MemoryType.pattern, content := "Uses Next.js app router", tags := [],
    created := 0, updated := 0, confidence := 1, accessCount := 0 }

def c1State : ProjectState :=
  { version := 2, project := "p", description := "", memories := [c1Old],
    lastUpdated := 0, extractionCount := 0 }

def c1Cand : MemoryCandidate :=
  { type := MemoryType.pattern, content := "Project uses Next.js app router", tags := ["memory"] }

/-- C1 witness: inserting "Project uses Next.js app router" over the active
    same-type record "Uses Next.js app router" tags the old record superseded
    and appends the new one. -/
theorem c1_witness :
    ((addMemory 1000 "m2" c1Cand c1State).2.memories.getD 0 dummyMemory).tags = ["superseded"]
      ∧ (addMemory 1000 "m2" c1Cand c1State).2.memories.length = 2
      ∧ ((addMemory 1000 "m2" c1Cand c1State).2.memories.getD 1 dummyMemory).content
          = "Project uses Next.js app router" := by
  have h := c1_addMemory 1000 "m2" c1Cand c1State
  have hblock := h.2 0 (by decide) ⟨by decide, by decide, by decide⟩
    (fun j hj => absurd hj (Nat.not_lt_zero j))
  have htag := (hblock.2.2 rfl).1
  refine ⟨?_, h.1.2.1, ?_⟩
  · rw [htag]
    rfl
  · have h3 : (addMemory 1000 "m2" c1Cand c1State).2.memories.getD 1 dummyMemory
        = { id := "m2", type := c1Cand.type, content := c1Cand.content, tags := c1Cand.tags,
            created := 1000, updated := 1000, confidence := 1, accessCount := 0,
            supersedes := c1Cand.supersedes, mergedFrom := c1Cand.mergedFrom } := h.1.2.2.1
    rw [h3]
    rfl

def c2rec (idStr : String) : Memory :=
  { id := idStr, type := MemoryType.pattern, content := "alpha beta gamma delta", tags := [],
    created := 0, updated := 0, confidence := 1, accessCount := 0 }

def c2State : ProjectState :=
  { version := 2, project := "p", description := "", memories := [c2rec "m1", c2rec "m2"],
    lastUpdated := 0, extractionCount := 0 }

def c2Cand : MemoryCandidate :=
  { type := MemoryType.pattern, content := "alpha beta gamma delta", tags := [] }

/-- C2 counterexample: the pair (second existing record, inserted candidate)
    is same-type with Jaccard similarity 1 > 0.6, yet after addMemory inserts
    the later record the earlier record "m2" carries no superseded tag — only
    the first match "m1" is tagged, refuting the claim's for-all-pairs form. -/
theorem c2_counterexample :
    simThreshold < jaccard (tokenize c2Cand.content) (tokenize (c2rec "m2").content)
      ∧ (c2rec "m2").type = c2Cand.type
      ∧ isActiveMem (c2rec "m2") = true
      ∧ ((addMemory 5 "m3" c2Cand c2State).2.memories.getD 1 dummyMemory).tags.contains
          "superseded" = false
      ∧ ((addMemory 5 "m3" c2Cand c2State).2.memories.getD 0 dummyMemory).tags.contains
          "superseded" = true := by
  exact ⟨by decide, by decide, by decide, by decide, by decide⟩

/-- C2 amended: when several active same-type records each exceed similarity
    0.6 with the inserted candidate, only the earliest one is tagged
    superseded; any later matching record is left completely unchanged (stated
    for candidates with no explicit supersedes reference, which would be a
    separate tagging path). -/
theorem c2_amended (now : Time) (newId : String) (cand : MemoryCandidate) (st : ProjectState)
    (hsup : cand.supersedes = none) (i j : Nat) (hi : i < st.memories.length)
    (hj : j < st.memories.length) (hij : i < j)
    (hci : isActiveMem (st.memories.getD i dummyMemory) = true
      ∧ (st.memories.getD i dummyMemory).type = cand.type
      ∧ simThreshold < jaccard (tokenize cand.content)
          (tokenize (st.memories.getD i dummyMemory).content))
    (hfirst : ∀ k, k < i →
      ¬(isActiveMem (st.memories.getD k dummyMemory) = true
        ∧ (st.memories.getD k dummyMemory).type = cand.type
        ∧ simThreshold < jaccard (tokenize cand.content)
            (tokenize (st.memories.getD k dummyMemory).content)))
    (hcj : isActiveMem (st.memories.getD j dummyMemory) = true
      ∧ (st.memories.getD j dummyMemory).type = cand.type
      ∧ simThreshold < jaccard (tokenize cand.content)
          (tokenize (st.memories.getD j dummyMemory).content)) :
    ((addMemory now newId cand st).2.memories.getD i dummyMemory).tags
        = (st.memories.getD i dummyMemory).tags ++ ["superseded"]
      ∧ (addMemory now newId cand st).2.memories.getD j dummyMemory
          = st.memories.getD j dummyMemory := by
  have hc : dedupHit cand (st.memories.getD i dummyMemory) = true :=
    (dedupHit_iff cand _).mpr hci
  have hf : ∀ k, k < i → dedupHit cand (st.memories.getD k dummyMemory) = false := by
    intro k hk
    rcases hb : dedupHit cand (st.memories.getD k dummyMemory) with _ | _
    · rfl
    · exact absurd ((dedupHit_iff cand _).mp hb) (hfirst k hk)
  obtain ⟨h1, h2⟩ := dedupPass_getD_hit now cand st.memories i hi hc hf
  have hshape : (addMemory now newId cand st).2.memories
      = dedupPass now cand st.memories
          ++ [{ id := newId, type := cand.type, content := cand.content, tags := cand.tags,
                created := now, updated := now, confidence := 1, accessCount := 0,
                supersedes := cand.supersedes, mergedFrom := cand.mergedFrom }] := by
    show explicitPass now cand (dedupPass now cand st.memories) ++ _ = _
    rw [explicitPass_none now cand _ hsup]
  constructor
  · rw [hshape, List.getD_eq_getElem?_getD,
      List.getElem?_append_left (by rw [dedupPass_length]; omega)]
    rw [← List.getD_eq_getElem?_getD, h1]
  · rw [hshape, List.getD_eq_getElem?_getD,
      List.getElem?_append_left (by rw [dedupPass_length]; omega)]
    rw [← List.getD_eq_getElem?_getD, h2 j (by omega)]

/-- C2 amended witness: with two active records both similar to the inserted
    candidate, the first is tagged after insertion and the second is unchanged. -/
theorem c2_amended_witness :
    ((addMemory 5 "m3" c2Cand c2State).2.memories.getD 0 dummyMemory).tags = ["superseded"]
      ∧ (addMemory 5 "m3" c2Cand c2State).2.memories.getD 1 dummyMemory = c2rec "m2" := by
  have h := c2_amended 5 "m3" c2Cand c2State rfl 0 1 (by decide) (by decide) (by decide)
    ⟨by decide, by decide, by decide⟩ (fun k hk => absurd hk (Nat.not_lt_zero k))
    ⟨by decide, by decide, by decide⟩
  refine ⟨?_, ?_⟩
  · rw [h.1]
    rfl
  · rw [h.2]
    rfl

/-- C10: jaccard returns 1 on two empty token sets, and consequently a
    candidate whose content tokenizes to the empty set causes addMemory to tag
    as superseded the first active same-type record whose content also
    tokenizes to the empty set (their similarity 1 exceeding 0.6). -/
theorem c10_empty_tokens (now : Time) (newId : String) (cand : MemoryCandidate)
    (st : ProjectState) (hempty : tokenize cand.content = []) (i : Nat)
    (hi : i < st.memories.length)
    (hact : isActiveMem (st.memories.getD i dummyMemory) = true)
    (hty : (st.memories.getD i dummyMemory).type = cand.type)
    (hemp2 : tokenize (st.memories.getD i dummyMemory).content = [])
    (hfirst : ∀ j, j < i →
      ¬(isActiveMem (st.memories.getD j dummyMemory) = true
        ∧ (st.memories.getD j dummyMemory).type = cand.type
        ∧ tokenize (st.memories.getD j dummyMemory).content = [])) :
    jaccard [] [] = 1
      ∧ simThreshold < jaccard (tokenize cand.content)
          (tokenize (st.memories.getD i dummyMemory).content)
      ∧ ((dedupPass now cand st.memories).getD i dummyMemory).tags
          = (st.memories.getD i dummyMemory).tags ++ ["superseded"]
      ∧ (cand.supersedes = none →
          ((addMemory now newId cand st).2.memories.getD i dummyMemory).tags
            = (st.memories.getD i dummyMemory).tags ++ ["superseded"]) := by
  have hc : dedupHit cand (st.memories.getD i dummyMemory) = true :=
    (dedupHit_of_empty cand hempty _).mpr ⟨hact, hty, hemp2⟩
  have hf : ∀ j, j < i → dedupHit cand (st.memories.getD j dummyMemory) = false := by
    intro j hj
    rcases hb : dedupHit cand (st.memories.getD j dummyMemory) with _ | _
    · rfl
    · exact absurd ((dedupHit_of_empty cand hempty _).mp hb) (hfirst j hj)
  obtain ⟨h1, h2⟩ := dedupPass_getD_hit now cand st.memories i hi hc hf
  refine ⟨rfl, ?_, by rw [h1], ?_⟩
  · rw [hempty, hemp2]
    decide
  · intro hsup
    have hshape : (addMemory now newId cand st).2.memories
        = dedupPass now cand st.memories
            ++ [{ id := newId, type := cand.type, content := cand.content, tags := cand.tags,
                  created := now, updated := now, confidence := 1, accessCount := 0,
                  supersedes := cand.supersedes, mergedFrom := cand.mergedFrom }] := by
      show explicitPass now cand (dedupPass now cand st.memories) ++ _ = _
      rw [explicitPass_none now cand _ hsup]
    rw [hshape, List.getD_eq_getElem?_getD,
      List.getElem?_append_left (by rw [dedupPass_length]; omega)]
    rw [← List.getD_eq_getElem?_getD, h1]

def c10Old : Memory :=
  { id := "m1", type := MemoryType.context, content := "the a !!", tags := [],
    created := 0, updated := 0, confidence := 1, accessCount := 0 }

def c10State : ProjectState :=
  { version := 2, project := "p", description := "", memories := [c10Old],
    lastUpdated := 0, extractionCount := 0 }

def c10Cand : MemoryCandidate :=
  { type := MemoryType.context, content := "of us is", tags := [] }

/-- C10 witness: "of us is" (stop words / short words only) inserted over the
    active same-type record "the a !!" (also token-free) supersedes it. -/
theorem c10_witness :
    tokenize "of us is" = []
      ∧ ((addMemory 7 "m2" c10Cand c10State).2.memories.getD 0 dummyMemory).tags
          = ["superseded"] := by
  have h := c10_empty_tokens 7 "m2" c10Cand c10State (by decide) 0 (by decide)
    (by decide) (by decide) (by decide) (fun j hj => absurd hj (Nat.not_lt_zero j))
  exact ⟨by decide, by rw [h.2.2.2 rfl]; rfl⟩

/-- C7: needsConsolidation() returns true exactly when the number of active
    records is strictly greater than 80, or the extraction counter is strictly
    positive and divisible by 10. -/
theorem c7_needsConsolidation_iff (st : ProjectState) :
    needsConsolidation st = true ↔
      (80 < (getActiveMemories st).length ∨
        (0 < st.extractionCount ∧ st.extractionCount % 10 = 0)) := by
  simp [needsConsolidation]

def c7Memory : Memory :=
  { id := "m", type := MemoryType.decision, content := "c", tags := [],
    created := 0, updated := 0, confidence := 1, accessCount := 0 }

def c7State : ProjectState :=
  { version := 2, project := "demo", description := "", memories := List.replicate 85 c7Memory,
    lastUpdated := 0, extractionCount := 3 }

/-- C7 witness: 85 active records with extraction count 3 trigger consolidation. -/
theorem c7_witness : needsConsolidation c7State = true :=
  (c7_needsConsolidation_iff c7State).mpr (Or.inl (by decide))

/-- C5: for every merge entry of a consolidation plan, applyConsolidation tags
    each record whose id is listed in the entry's sources with superseded
    (stamping its updated timestamp to now), and appends exactly one
    synthesized record per entry — fresh id, type of the record matching the
    first listed source (fallback context if none matches), the entry's
    content and tags, confidence 1, accessCount 0, and mergedFrom equal to the
    entry's sources.  Stated under the data-model invariants: record ids are
    unique, and the generated fresh ids are injective and collide neither with
    existing ids nor with listed source ids. -/
theorem c5_applyConsolidation (now : Time) (mkId : Nat → String) (plan : ConsolidationPlan)
    (st : ProjectState)
    (hnd : (st.memories.map Memory.id).Nodup)
    (hinj : ∀ a b, a < plan.merge.length → b < plan.merge.length → mkId a = mkId b → a = b)
    (hex : ∀ m ∈ st.memories, ∀ j, j < plan.merge.length → m.id ≠ mkId j)
    (hfreshSrc : ∀ e ∈ plan.merge, ∀ s ∈ e.sources, ∀ j, j < plan.merge.length → s ≠ mkId j) :
    ((consolidatedMems now mkId plan st.memories).map Memory.id
        = st.memories.map Memory.id ++ (List.range plan.merge.length).map mkId)
      ∧ (∀ m ∈ st.memories, ∀ e ∈ plan.merge, m.id ∈ e.sources →
          ∃ r ∈ (applyConsolidation now mkId plan st).memories,
            r.id = m.id ∧ r.type = m.type ∧ r.content = m.content
              ∧ "superseded" ∈ r.tags ∧ r.updated = now)
      ∧ (∀ j e, plan.merge.get? j = some e →
          { id := mkId j, type := mergeType st.memories e.sources, content := e.content,
            tags := e.tags, created := now, updated := now, confidence := 1, accessCount := 0,
            supersedes := none, mergedFrom := some e.sources }
            ∈ (applyConsolidation now mkId plan st).memories) := by
  have hdropid : (dropPhase now plan.drop st.memories).map Memory.id
      = st.memories.map Memory.id := tagEach_map_id _ _ _ _
  have hmems : (applyConsolidation now mkId plan st).memories
      = prunePhase now (consolidatedMems now mkId plan st.memories) := rfl
  refine ⟨?_, ?_, ?_⟩
  · show (mergePhase now mkId 0 plan.merge (dropPhase now plan.drop st.memories)).map Memory.id
        = _
    rw [mergePhase_map_id, hdropid]
    congr 1
    refine List.map_congr_left ?_
    intro a _
    exact congrArg mkId (by omega)
  · intro m hm e he hsid
    obtain ⟨m0, hm0, g1, g2, g3, g4, g5, g6, g7, g8⟩ :=
      tagEach_preserve "archived" now plan.drop st.memories m hm
    have hnd0 : ((dropPhase now plan.drop st.memories).map Memory.id).Nodup := by
      rw [hdropid]
      exact hnd
    have hex0 : ∀ m' ∈ dropPhase now plan.drop st.memories, ∀ j, 0 ≤ j →
        j < 0 + plan.merge.length → m'.id ≠ mkId j := by
      intro m' hm' j _ hj
      have hmem : m'.id ∈ (dropPhase now plan.drop st.memories).map Memory.id :=
        List.mem_map_of_mem Memory.id hm'
      rw [hdropid] at hmem
      obtain ⟨m'', hm'', hid''⟩ := List.mem_map.mp hmem
      rw [← hid'']
      exact hex m'' hm'' j (by omega)
    have hinj0 : ∀ a b, 0 ≤ a → a < 0 + plan.merge.length → 0 ≤ b →
        b < 0 + plan.merge.length → mkId a = mkId b → a = b := by
      intro a b _ ha _ hb hab
      exact hinj a b (by omega) (by omega) hab
    obtain ⟨r, hr, p1, p2, p3, p4, p5⟩ :=
      mergePhase_establish now mkId plan.merge 0 _ hnd0 hinj0 hex0 m0 hm0 e he
        (by rw [g1]; exact hsid)
    refine ⟨r, ?_, p1.trans g1, p2.trans g2, p3.trans g3, p4, p5⟩
    rw [hmems]
    exact List.mem_filter.mpr ⟨hr, pruneKeep_of_updated_now now r p5⟩
  · intro j e hj
    have hfresh' : ∀ e' ∈ plan.merge, ∀ s ∈ e'.sources, ∀ j', 0 ≤ j' →
        j' < 0 + plan.merge.length → s ≠ mkId j' := by
      intro e' he' s hs j' _ hj'
      exact hfreshSrc e' he' s hs j' (by omega)
    have hMT0 : ∀ e' ∈ plan.merge,
        mergeType (dropPhase now plan.drop st.memories) e'.sources
          = mergeType st.memories e'.sources := by
      intro e' _
      exact mergeType_tagEach _ _ _ _ _
    have hmem := mergePhase_merged now mkId st.memories plan.merge 0 _ hfresh' hMT0 j e hj
    have harith : mkId (0 + j) = mkId j := congrArg mkId (by omega)
    rw [harith] at hmem
    show mergedRecord now (mkId j) st.memories e
        ∈ (applyConsolidation now mkId plan st).memories
    rw [hmems]
    exact List.mem_filter.mpr ⟨hmem, pruneKeep_of_updated_now now _ rfl⟩

def c5ra : Memory :=
  { id := "a", type := MemoryType.progress, content := "x", tags := [],
    created := 0, updated := 0, confidence := 1, accessCount := 0 }

def c5rb : Memory :=
  { id := "b", type := MemoryType.context, content := "y", tags := [],
    created := 0, updated := 0, confidence := 1, accessCount := 2 }

def c5State : ProjectState :=
  { version := 2, project := "p", description := "", memories := [c5ra, c5rb],
    lastUpdated := 0, extractionCount := 0 }

def c5Plan : ConsolidationPlan :=
  { keep := [], merge := [{ content := "merged", tags := ["t"], sources := ["a", "b"] }],
    drop := [] }

/-- C5 witness: merging sources a and b tags the source record superseded and
    appends the synthesized record carrying the type of source a. -/
theorem c5_witness :
    (∃ r ∈ (applyConsolidation 3 (fun _ => "fresh") c5Plan c5State).memories,
        r.id = "a" ∧ r.type = MemoryType.progress ∧ r.content = "x"
          ∧ "superseded" ∈ r.tags ∧ r.updated = 3)
      ∧ { id := "fresh", type := MemoryType.progress, content := "merged", tags := ["t"],
          created := 3, updated := 3, confidence := 1, accessCount := 0,
          supersedes := none, mergedFrom := some ["a", "b"] }
          ∈ (applyConsolidation 3 (fun _ => "fresh") c5Plan c5State).memories := by
  have h := c5_applyConsolidation 3 (fun _ => "fresh") c5Plan c5State (by decide)
    (by
      intro a b ha hb _
      have h1 : c5Plan.merge.length = 1 := rfl
      omega)
    (by
      intro m hm j hj
      fin_cases hm
      · show "a" ≠ "fresh"
        decide
      · show "b" ≠ "fresh"
        decide)
    (by
      intro e he s hs j hj
      fin_cases he
      fin_cases hs
      · show "a" ≠ "fresh"
        decide
      · show "b" ≠ "fresh"
        decide)
  constructor
  · exact h.2.1 c5ra (by decide) { content := "merged", tags := ["t"], sources := ["a", "b"] }
      (by decide) (by decide)
  · have h3 := h.2.2 0 { content := "merged", tags := ["t"], sources := ["a", "b"] } rfl
    have hty : mergeType c5State.memories ["a", "b"] = MemoryType.progress := by decide
    rw [hty] at h3
    exact h3

/-- C6: after the drop and merge phases, pruning deletes a record exactly when
    it is tagged archived and its updated timestamp is older than 14 days
    before now; a record without the archived tag always survives, and so does
    one whose updated timestamp is exactly 13 days old. -/
theorem c6_prune_iff (now : Time) (mkId : Nat → String) (plan : ConsolidationPlan)
    (st : ProjectState) :
    (∀ m : Memory,
        m ∈ (applyConsolidation now mkId plan st).memories ↔
          (m ∈ consolidatedMems now mkId plan st.memories ∧
            ¬(m.tags.contains "archived" = true ∧ m.updated < now - 14 * 86400000)))
      ∧ (∀ m ∈ consolidatedMems now mkId plan st.memories,
          m.tags.contains "archived" = false →
            m ∈ (applyConsolidation now mkId plan st).memories)
      ∧ (∀ m ∈ consolidatedMems now mkId plan st.memories,
          m.updated = now - 13 * 86400000 →
            m ∈ (applyConsolidation now mkId plan st).memories) := by
  have hk : ∀ m : Memory, pruneKeep now m = true ↔
      ¬(m.tags.contains "archived" = true ∧ m.updated < now - 14 * 86400000) := by
    intro m
    simp [pruneKeep]
    tauto
  have hmem : ∀ m : Memory,
      m ∈ (applyConsolidation now mkId plan st).memories ↔
        (m ∈ consolidatedMems now mkId plan st.memories ∧
          ¬(m.tags.contains "archived" = true ∧ m.updated < now - 14 * 86400000)) := by
    intro m
    have : (applyConsolidation now mkId plan st).memories
        = (consolidatedMems now mkId plan st.memories).filter (pruneKeep now) := rfl
    rw [this, List.mem_filter, hk]
  refine ⟨hmem, ?_, ?_⟩
  · intro m hm hc
    exact (hmem m).mpr ⟨hm, fun hcontra => by rw [hc] at hcontra; exact absurd hcontra.1 (by simp)⟩
  · intro m hm hu
    refine (hmem m).mpr ⟨hm, ?_⟩
    rintro ⟨-, hlt⟩
    rw [hu] at hlt
    linarith

def c6Rec (idStr : String) (tags : List String) (upd : Time) : Memory :=
  { id := idStr, type := MemoryType.gotcha, content := "x", tags := tags,
    created := upd, updated := upd, confidence := 1, accessCount := 0 }

def c6State : ProjectState :=
  { version := 2, project := "p", description := "",
    memories := [c6Rec "old" ["archived"] (-1296000000), c6Rec "recent" ["archived"] (-1123200000),
      c6Rec "plain" [] (-9999999999)],
    lastUpdated := 0, extractionCount := 0 }

def c6Plan : ConsolidationPlan := { keep := [], merge := [], drop := [] }

/-- C6 witness: with now = 0, an archived record 15 days old is pruned while an
    archived record exactly 13 days old and an untagged ancient record survive. -/
theorem c6_witness :
    c6Rec "recent" ["archived"] (-1123200000)
        ∈ (applyConsolidation 0 (fun _ => "f") c6Plan c6State).memories
      ∧ c6Rec "plain" [] (-9999999999)
          ∈ (applyConsolidation 0 (fun _ => "f") c6Plan c6State).memories
      ∧ c6Rec "old" ["archived"] (-1296000000)
          ∉ (applyConsolidation 0 (fun _ => "f") c6Plan c6State).memories := by
  have h := c6_prune_iff 0 (fun _ => "f") c6Plan c6State
  refine ⟨?_, ?_, ?_⟩
  · exact h.2.2 _ (by decide) (by decide)
  · exact h.2.1 _ (by decide) (by decide)
  · intro hmem
    exact ((h.1 _).mp hmem).2 ⟨by decide, by decide⟩

/-- C8: in the digest, each type whose group of active records above the
    confidence floor is smaller than its nominal budget contributes the
    difference as surplus; the summed surplus, floor-divided by the number of
    over-budget types, is added as an equal share to each over-budget type's
    budget; and the number of rendered record lines of each type never exceeds
    its nominal budget plus its redistributed share. -/
theorem c8_digest_budgets (st : ProjectState) :
    ((computeBudgets (fun u => (typeGroup st u).length)).surplus
        = (TYPE_ORDER.map (fun u =>
            if (typeGroup st u).length < TYPE_LINE_BUDGET u then
              TYPE_LINE_BUDGET u - (typeGroup st u).length
            else 0)).sum)
      ∧ (∀ t, TYPE_LINE_BUDGET t < (typeGroup st t).length →
          finalBudgets (fun u => (typeGroup st u).length) t
            = TYPE_LINE_BUDGET t
                + (computeBudgets (fun u => (typeGroup st u).length)).surplus
                  / (computeBudgets (fun u => (typeGroup st u).length)).overBudget.length)
      ∧ (∀ t,
          (((sortByImportance (typeGroup st t)).take
              (finalBudgets (fun u => (typeGroup st u).length) t)).map renderMemLine).length
            ≤ TYPE_LINE_BUDGET t
                + (if TYPE_LINE_BUDGET t < (typeGroup st t).length then
                    (computeBudgets (fun u => (typeGroup st u).length)).surplus
                      / (computeBudgets (fun u => (typeGroup st u).length)).overBudget.length
                  else 0)) := by
  refine ⟨computeBudgets_surplus _, ?_, ?_⟩
  · intro t ht
    rw [finalBudgets_eq, Nat.min_eq_right (le_of_lt ht)]
    by_cases hsur : 0 < (computeBudgets (fun u => (typeGroup st u).length)).surplus
    · rw [if_pos ⟨ht, hsur⟩]
    · rw [if_neg (fun hc => hsur hc.2)]
      have hz : (computeBudgets (fun u => (typeGroup st u).length)).surplus = 0 := by omega
      rw [hz, Nat.zero_div]
  · intro t
    rw [List.length_map, List.length_take, sortByImportance_length, finalBudgets_eq]
    have hmin : min ((typeGroup st t).length) (TYPE_LINE_BUDGET t) ≤ TYPE_LINE_BUDGET t :=
      min_le_right _ _
    by_cases ht : TYPE_LINE_BUDGET t < (typeGroup st t).length
    · rw [if_pos ht]
      by_cases hsur : 0 < (computeBudgets (fun u => (typeGroup st u).length)).surplus
      · rw [if_pos ⟨ht, hsur⟩]
        exact le_trans (min_le_left _ _) (Nat.add_le_add_right hmin _)
      · rw [if_neg (fun hc => hsur hc.2)]
        exact le_trans (min_le_left _ _)
          (le_trans (Nat.add_le_add_right hmin 0) (Nat.add_le_add_left (Nat.zero_le _) _))
    · rw [if_neg ht, if_neg (fun hc => ht hc.1)]
      exact le_trans (min_le_left _ _) (Nat.add_le_add_right hmin 0)

def c8Memory (k : Nat) : Memory :=
  { id := Nat.repr k, type := MemoryType.architecture, content := "arch", tags := [],
    created := 0, updated := 0, confidence := 1, accessCount := k }

def c8State : ProjectState :=
  { version := 2, project := "p", description := "",
    memories := (List.range 26).map c8Memory, lastUpdated := 0, extractionCount := 0 }

/-- C8 witness: 26 architecture records against nominal budgets 25/25/25/20/30/15
    leave 115 lines of surplus, all of which is granted to the single
    over-budget type, whose budget becomes 140 and whose rendered record lines
    stay within 25 + 115. -/
theorem c8_witness :
    finalBudgets (fun u => (typeGroup c8State u).length) MemoryType.architecture = 140
      ∧ (((sortByImportance (typeGroup c8State MemoryType.architecture)).take
            (finalBudgets (fun u => (typeGroup c8State u).length) MemoryType.architecture)).map
          renderMemLine).length ≤ 25 + 115 := by
  have h := c8_digest_budgets c8State
  constructor
  · have h2 := h.2.1 MemoryType.architecture (by decide)
    rw [h2]
    decide
  · have h3 := h.2.2 MemoryType.architecture
    refine le_trans h3 (le_of_eq ?_)
    decide

/-- C9: deleteMemory with an absent id returns false and leaves the whole state
    (lastUpdated included) untouched; with a present id (record ids being
    unique) it removes exactly that record, keeps every other record and every
    other state field, stamps lastUpdated, and returns true. -/
theorem c9_deleteMemory (now : Time) (mid : String) (st : ProjectState) :
    ((∀ m ∈ st.memories, m.id ≠ mid) → deleteMemory now mid st = (false, st))
      ∧ (∀ l1 m0 l2, (st.memories.map Memory.id).Nodup →
          st.memories = l1 ++ m0 :: l2 → m0.id = mid →
          deleteMemory now mid st
            = (true, { st with memories := l1 ++ l2, lastUpdated := now })) := by
  constructor
  · intro h
    have hfind : st.memories.findIdx? (fun m => m.id == mid) = none := by
      rw [List.findIdx?_eq_none_iff]
      intro x hx
      simpa using h x hx
    simp [deleteMemory, hfind]
  · intro l1 m0 l2 hnd hdecomp hid
    have h1 : ∀ x ∈ l1, (fun m : Memory => m.id == mid) x = false := by
      intro x hx
      rw [hdecomp, List.map_append, List.nodup_append] at hnd
      have hdisj := hnd.2.2
      have hxid : x.id ∈ l1.map Memory.id := List.mem_map_of_mem _ hx
      have hm0 : m0.id ∈ (m0 :: l2).map Memory.id := by simp
      have hne : x.id ≠ m0.id := fun he => hdisj hxid (he ▸ hm0)
      have hne' : x.id ≠ mid := by rw [← hid]; exact hne
      exact beq_eq_false_iff_ne.mpr hne'
    have hfind : st.memories.findIdx? (fun m => m.id == mid) = some l1.length := by
      rw [hdecomp]
      exact findIdx?_append_cons _ _ _ _ h1 (by simp [hid])
    have herase : st.memories.eraseIdx l1.length = l1 ++ l2 := by
      rw [hdecomp]
      exact eraseIdx_append_cons _ _ _
    simp [deleteMemory, hfind, save, herase]

def c9rA : Memory :=
  { id := "a", type := MemoryType.progress, content := "first", tags := [],
    created := 1, updated := 1, confidence := 1, accessCount := 0 }

def c9rB : Memory :=
  { id := "b", type := MemoryType.context, content := "second", tags := [],
    created := 2, updated := 2, confidence := 1, accessCount := 3 }

def c9State : ProjectState :=
  { version := 2, project := "p", description := "d", memories := [c9rA, c9rB],
    lastUpdated := 5, extractionCount := 7 }

/-- C9 witness: deleting a missing id is a no-op returning false; deleting "a"
    removes exactly that record and stamps lastUpdated. -/
theorem c9_witness :
    deleteMemory 99 "zzz" c9State = (false, c9State)
      ∧ deleteMemory 99 "a" c9State = (true, { c9State with memories := [c9rB], lastUpdated := 99 }) := by
  have h1 := c9_deleteMemory 99 "zzz" c9State
  have h2 := c9_deleteMemory 99 "a" c9State
  refine ⟨h1.1 (by decide), ?_⟩
  have := h2.2 [] c9rA [c9rB] (by decide) rfl rfl
  simpa using this

/-- C3: searchMemories scores each active record as 2 per query token found in
    its content tokens plus 3 per query token found in its lowercased tags,
    keeps only positive scores, sorts them in descending score order with ties
    in original collection order (the stable-sort rank rankR), truncates to
    limit, increments accessCount by exactly one on each returned record and
    persists once (lastUpdated stamped); when nothing is returned — in
    particular when no record scores positive — the state, every accessCount
    included, is left completely unchanged. -/
theorem c3_searchMemories (now : Time) (q : String) (limit : Nat) (st : ProjectState) :
    ((∀ m : Memory, scoreSearch (tokenize q) m
        = 2 * ((tokenize q).filter (fun w => (tokenize m.content).contains w)).length
          + 3 * ((tokenize q).filter (fun w => (m.tags.map lowerStr).contains w)).length)
      ∧ (searchRanked (tokenize q) st).Perm
          ((activeIdx st).filter (fun p => decide (0 < scoreSearch (tokenize q) p.2)))
      ∧ (searchRanked (tokenize q) st).Pairwise (rankR (scoreSearch (tokenize q)))
      ∧ (searchMemories now q limit st).1
          = ((searchRanked (tokenize q) st).take limit).map (fun p => bumpAccess p.2)
      ∧ (searchMemories now q limit st).1.length
          = min limit ((activeIdx st).filter
              (fun p => decide (0 < scoreSearch (tokenize q) p.2))).length
      ∧ (∀ p ∈ (searchMemories now q limit st).1, ∃ i m,
          st.memories.get? i = some m ∧ isActiveMem m = true
            ∧ 0 < scoreSearch (tokenize q) m ∧ p = bumpAccess m))
    ∧ ((searchMemories now q limit st).2.memories.length = st.memories.length
      ∧ (∀ k, k < st.memories.length →
          (searchMemories now q limit st).2.memories.getD k dummyMemory
            = if k ∈ ((searchRanked (tokenize q) st).take limit).map Prod.fst then
                bumpAccess (st.memories.getD k dummyMemory)
              else st.memories.getD k dummyMemory)
      ∧ ((searchMemories now q limit st).1 = [] → (searchMemories now q limit st).2 = st)
      ∧ ((searchMemories now q limit st).1 ≠ [] →
          (searchMemories now q limit st).2.lastUpdated = now)) := by
  have hperm : (searchRanked (tokenize q) st).Perm
      ((activeIdx st).filter (fun p => decide (0 < scoreSearch (tokenize q) p.2))) :=
    List.perm_insertionSort _ _
  have hfst := searchMemories_fst now q limit st
  constructor
  · refine ⟨fun m => scoreSearch_formula _ m, hperm, List.sorted_insertionSort _ _, hfst,
      ?_, ?_⟩
    · rw [hfst, List.length_map, List.length_take, hperm.length_eq]
    · intro p hp
      rw [hfst] at hp
      obtain ⟨pr, hpr, hbump⟩ := List.mem_map.mp hp
      have hpr' : pr ∈ searchRanked (tokenize q) st :=
        (List.take_sublist _ _).subset hpr
      obtain ⟨hget, hlt, hact, hscore⟩ := searchRanked_mem_props _ st pr hpr'
      exact ⟨pr.1, pr.2, hget, hact, hscore, hbump.symm⟩
  · by_cases htake : (searchRanked (tokenize q) st).take limit = []
    · have hsnd : (searchMemories now q limit st).2 = st :=
        searchMemories_snd_of_take_nil now q limit st htake
      refine ⟨by rw [hsnd], ?_, fun _ => hsnd, ?_⟩
      · intro k hk
        rw [hsnd, htake]
        simp
      · intro hne
        exfalso
        apply hne
        rw [hfst, htake]
        rfl
    · have hsnd := searchMemories_snd_of_take_ne now q limit st htake
      have hnd := searchRanked_take_fst_nodup (tokenize q) st limit
      refine ⟨?_, ?_, ?_, ?_⟩
      · rw [hsnd]
        show (((searchRanked (tokenize q) st).take limit).foldl
            (fun ms p => bumpAt ms p.1) st.memories).length = st.memories.length
        exact foldl_bumpAt_length _ st.memories
      · intro k hk
        rw [hsnd]
        show (((searchRanked (tokenize q) st).take limit).foldl
            (fun ms p => bumpAt ms p.1) st.memories).getD k dummyMemory = _
        exact foldl_bumpAt_getD _ st.memories hnd k hk
      · intro hres
        exfalso
        apply htake
        rw [hfst] at hres
        exact List.map_eq_nil.mp hres
      · intro _
        rw [hsnd]
        rfl

def c3r1 : Memory :=
  { id := "r1", type := MemoryType.pattern, content := "router patterns", tags := ["memory"],
    created := 0, updated := 0, confidence := 1, accessCount := 4 }

def c3r2 : Memory :=
  { id := "r2", type := MemoryType.context, content := "unrelated stuff", tags := [],
    created := 0, updated := 0, confidence := 1, accessCount := 0 }

def c3State : ProjectState :=
  { version := 2, project := "p", description := "", memories := [c3r1, c3r2],
    lastUpdated := 7, extractionCount := 0 }

/-- C3 witness: searching "router" returns the single matching record with its
    accessCount bumped from 4 to 5; searching "zebra" matches nothing, returns
    the empty list, and leaves the state untouched. -/
theorem c3_witness :
    (searchMemories 50 "router" 10 c3State).1 = [{ c3r1 with accessCount := 5 }]
      ∧ (searchMemories 50 "zebra" 10 c3State).1 = []
      ∧ (searchMemories 50 "zebra" 10 c3State).2 = c3State := by
  have h1 := c3_searchMemories 50 "router" 10 c3State
  have h2 := c3_searchMemories 50 "zebra" 10 c3State
  have hres1 : (searchMemories 50 "router" 10 c3State).1
      = [{ c3r1 with accessCount := 5 }] := by
    rw [h1.1.2.2.2.1]
    decide
  have hres2 : (searchMemories 50 "zebra" 10 c3State).1 = [] := by
    rw [h2.1.2.2.2.1]
    decide
  exact ⟨hres1, hres2, h2.2.2.2.1 hres2⟩

/-- C4: decayConfidence recomputes, for every record not tagged superseded or
    archived, confidence = max(0, 1 - ageDays/7) for type progress and
    max(0, 1 - ageDays/30) for type context, where ageDays is the elapsed time
    since the record's updated timestamp in days; records of the other four
    types, and tagged records, are left entirely unchanged. -/
theorem c4_decayConfidence (now : Time) (st : ProjectState) (i : Nat)
    (hi : i < st.memories.length) :
    ((st.memories.getD i dummyMemory).tags.contains "superseded" = false →
      (st.memories.getD i dummyMemory).tags.contains "archived" = false →
      (((st.memories.getD i dummyMemory).type = MemoryType.progress →
          (decayConfidence now st).memories.getD i dummyMemory
            = { st.memories.getD i dummyMemory with
                confidence := max 0 (1 -
                  ((now - (st.memories.getD i dummyMemory).updated : Int) : ℚ) / 86400000 / 7) })
        ∧ ((st.memories.getD i dummyMemory).type = MemoryType.context →
          (decayConfidence now st).memories.getD i dummyMemory
            = { st.memories.getD i dummyMemory with
                confidence := max 0 (1 -
                  ((now - (st.memories.getD i dummyMemory).updated : Int) : ℚ) / 86400000 / 30) })
        ∧ ((st.memories.getD i dummyMemory).type ≠ MemoryType.progress →
            (st.memories.getD i dummyMemory).type ≠ MemoryType.context →
            (decayConfidence now st).memories.getD i dummyMemory
              = st.memories.getD i dummyMemory)))
      ∧ (((st.memories.getD i dummyMemory).tags.contains "superseded" = true
            ∨ (st.memories.getD i dummyMemory).tags.contains "archived" = true) →
          (decayConfidence now st).memories.getD i dummyMemory
            = st.memories.getD i dummyMemory) := by
  have hmap : (decayConfidence now st).memories.getD i dummyMemory
      = decayOne now (st.memories.getD i dummyMemory) := by
    show (st.memories.map (decayOne now)).getD i dummyMemory = _
    exact getD_map_of_lt _ _ _ _ dummyMemory hi
  rw [hmap]
  set old := st.memories.getD i dummyMemory with hold
  constructor
  · intro hs ha
    have hs' : "superseded" ∉ old.tags := by simpa using hs
    have ha' : "archived" ∉ old.tags := by simpa using ha
    refine ⟨?_, ?_, ?_⟩
    · intro h1
      simp [decayOne, hs', ha', h1]
    · intro h1
      simp [decayOne, hs', ha', h1]
    · intro h1 h2
      cases htype : old.type
      · simp [decayOne, hs', ha', htype]
      · simp [decayOne, hs', ha', htype]
      · simp [decayOne, hs', ha', htype]
      · simp [decayOne, hs', ha', htype]
      · exact absurd htype h1
      · exact absurd htype h2
  · intro h
    rcases h with h | h
    · have h' : "superseded" ∈ old.tags := by simpa using h
      simp [decayOne, h']
    · have h' : "archived" ∈ old.tags := by simpa using h
      simp [decayOne, h']

def c4rec (upd : Time) : Memory :=
  { id := "p", type := MemoryType.progress, content := "w", tags := [],
    created := upd, updated := upd, confidence := 1, accessCount := 0 }

def c4State : ProjectState :=
  { version := 2, project := "p", description := "", memories := [c4rec 0, c4rec 302400000],
    lastUpdated := 0, extractionCount := 0 }

/-- C4 witness: with now at 604800000 ms (7 days), a progress record updated at
    time 0 decays to confidence 0 and one updated 3.5 days ago decays to 1/2. -/
theorem c4_witness :
    ((decayConfidence 604800000 c4State).memories.getD 0 dummyMemory).confidence = 0
      ∧ ((decayConfidence 604800000 c4State).memories.getD 1 dummyMemory).confidence = 1/2 := by
  have h0 := ((c4_decayConfidence 604800000 c4State 0 (by decide)).1
    (by decide) (by decide)).1 (by decide)
  have h1 := ((c4_decayConfidence 604800000 c4State 1 (by decide)).1
    (by decide) (by decide)).1 (by decide)
  rw [h0, h1]
  constructor
  · have : c4State.memories.getD 0 dummyMemory = c4rec 0 := rfl
    rw [this]
    show max 0 (1 - ((604800000 - (0:Int) : Int) : ℚ) / 86400000 / 7) = 0
    norm_num [max_def]
  · have : c4State.memories.getD 1 dummyMemory = c4rec 302400000 := rfl
    rw [this]
    show max 0 (1 - ((604800000 - (302400000:Int) : Int) : ℚ) / 86400000 / 7) = 1/2
    norm_num [max_def]

end MemoryMcp
